import Mathlib

/-!
Verification of the parallel image-filtering engine (blur.c, kuwahara.c).

The C code is shallowly embedded as follows.

* A pixel buffer (`unsigned char*`) is a total function `ℤ → ℤ` from flat byte
  index to byte value; `Image` carries the buffer plus `width`, `height`,
  `channels`, exactly as the C struct.  All defined-behaviour executions of the
  C code only read indices inside the allocation, where this model agrees with
  the machine.
* `float` arithmetic is modelled by exact rational arithmetic `ℚ`.  The C
  library call `expf` is an abstract parameter `expf : ℚ → ℚ` of the kernel
  generator (its only property used by the specification is positivity).
* `roundf` followed by the cast to `unsigned char` is modelled by
  `roundAway : ℚ → ℤ` (round half away from zero, as `roundf`).  For results in
  `[0,255]` — the only defined-behaviour domain of the cast — the cast is the
  identity on the rounded value, so the byte stored is exactly `roundAway`.
* Each store `dst->data[i] = v` becomes an element of a write list, applied in
  program order by `applyWrites` (`Function.update` per store).  The worker
  threads of one phase write pairwise disjoint destination rows and are joined
  before the next phase, so running the partitions sequentially in partition
  order is a faithful linearisation of every defined-behaviour schedule.
-/

/-- Round half away from zero, as C `roundf`. -/
def roundAway (q : ℚ) : ℤ :=
  if q < 0 then -⌊-q + 1 / 2⌋ else ⌊q + 1 / 2⌋

/-- Apply a list of (index, value) stores, in program order, to a buffer. -/
def applyWrites (init : ℤ → ℤ) (ws : List (ℤ × ℤ)) : ℤ → ℤ :=
  ws.foldl (fun b p => Function.update b p.1 p.2) init

/-- The `Image` struct of blur.c / kuwahara.c: byte buffer plus dimensions. -/
structure Image where
  data : ℤ → ℤ
  width : ℕ
  height : ℕ
  channels : ℕ

/-- The clamp applied in the left-edge loop of `blur_horizontal`:
`if (src_x < 0) src_x = 0;`. -/
def clampLow (sx : ℤ) : ℤ := if sx < 0 then 0 else sx

/-- The clamp applied in the right-edge loop of `blur_horizontal`:
`if (src_x >= src->width) src_x = src->width - 1;`. -/
def clampHigh (w : ℤ) (sx : ℤ) : ℤ := if w ≤ sx then w - 1 else sx

/-- The divisor `2.0f * sigma * sigma` of `generate_gaussian_kernel`, with
`sigma = radius / 3.0f`. -/
def kernel_divisor (radius : ℕ) : ℚ :=
  2 * ((radius : ℚ) / 3) * ((radius : ℚ) / 3)

/-- The unnormalised weights computed by the first loop of
`generate_gaussian_kernel`: `kernel[i] = expf(-(x*x) / (2*sigma*sigma))` with
`x = i - radius`, for `i < 2*radius+1`. -/
def gaussian_raw (expf : ℚ → ℚ) (radius : ℕ) : List ℚ :=
  (List.range (2 * radius + 1)).map (fun (i : ℕ) =>
    expf (-(((i : ℚ) - radius) * ((i : ℚ) - radius)) / kernel_divisor radius))

/-- `generate_gaussian_kernel`: the weights divided by their sum. -/
def generate_gaussian_kernel (expf : ℚ → ℚ) (radius : ℕ) : List ℚ :=
  (gaussian_raw expf radius).map (fun w => w / (gaussian_raw expf radius).sum)

/-- The accumulated sum of the left-edge loop body of `blur_horizontal`
(clamps only negative sample coordinates). -/
def convSumLeft (src : Image) (kernel : List ℚ) (radius : ℕ) (y x : ℤ) (ch : ℕ) : ℚ :=
  ∑ k ∈ Finset.range (2 * radius + 1),
    (src.data ((y * src.width + clampLow (x + k - radius)) * 4 + ch) : ℚ) * kernel.getD k 0

/-- The accumulated sum of the middle loop body of `blur_horizontal`
(no clamping). -/
def convSumMid (src : Image) (kernel : List ℚ) (radius : ℕ) (y x : ℤ) (ch : ℕ) : ℚ :=
  ∑ k ∈ Finset.range (2 * radius + 1),
    (src.data ((y * src.width + (x + k - radius)) * 4 + ch) : ℚ) * kernel.getD k 0

/-- The accumulated sum of the right-edge loop body of `blur_horizontal`
(clamps only sample coordinates `≥ width`). -/
def convSumRight (src : Image) (kernel : List ℚ) (radius : ℕ) (y x : ℤ) (ch : ℕ) : ℚ :=
  ∑ k ∈ Finset.range (2 * radius + 1),
    (src.data ((y * src.width + clampHigh src.width (x + k - radius)) * 4 + ch) : ℚ) * kernel.getD k 0

/-- Stores of the left-edge loop of `blur_horizontal` for one row:
`for (x = 0; x < radius && x < width; x++) for (ch = 0; ch < 4; ch++)`. -/
def leftWrites (src : Image) (dstW : ℕ) (kernel : List ℚ) (radius : ℕ) (y : ℤ) : List (ℤ × ℤ) :=
  (List.range (min radius src.width)).flatMap (fun (x : ℕ) =>
    (List.range 4).map (fun (ch : ℕ) =>
      ((y * dstW + (x : ℤ)) * 4 + ch, roundAway (convSumLeft src kernel radius y (x : ℤ) ch))))

/-- Stores of the middle loop of `blur_horizontal` for one row:
`for (x = radius; x < width - radius; x++)`. -/
def midWrites (src : Image) (dstW : ℕ) (kernel : List ℚ) (radius : ℕ) (y : ℤ) : List (ℤ × ℤ) :=
  (List.range (src.width - radius - radius)).flatMap (fun (i : ℕ) =>
    (List.range 4).map (fun (ch : ℕ) =>
      ((y * dstW + ((radius : ℤ) + (i : ℤ))) * 4 + ch,
        roundAway (convSumMid src kernel radius y ((radius : ℤ) + (i : ℤ)) ch))))

/-- Stores of the right-edge loop of `blur_horizontal` for one row:
`for (x = width - radius; x < width; x++) { if (x < radius) continue; ... }`.
This loop indexes the destination with `dst->channels` where the other two use
the literal `4`. -/
def rightWrites (src : Image) (dstW dstC : ℕ) (kernel : List ℚ) (radius : ℕ) (y : ℤ) :
    List (ℤ × ℤ) :=
  (List.range radius).flatMap (fun (i : ℕ) =>
    if ((src.width : ℤ) - radius + (i : ℤ)) < radius then [] else
    (List.range 4).map (fun (ch : ℕ) =>
      ((y * dstW + ((src.width : ℤ) - radius + (i : ℤ))) * dstC + ch,
        roundAway (convSumRight src kernel radius y ((src.width : ℤ) - radius + (i : ℤ)) ch))))

/-- All stores `blur_horizontal` performs for one row, in program order. -/
def rowWrites (src : Image) (dstW dstC : ℕ) (kernel : List ℚ) (radius : ℕ) (y : ℤ) :
    List (ℤ × ℤ) :=
  leftWrites src dstW kernel radius y ++ midWrites src dstW kernel radius y ++
    rightWrites src dstW dstC kernel radius y

/-- All stores of one `blur_horizontal(src, dst, kernel, radius, start_row,
end_row)` call, in program order. -/
def blurWrites (src : Image) (dstW dstC : ℕ) (kernel : List ℚ) (radius : ℕ)
    (start_row end_row : ℕ) : List (ℤ × ℤ) :=
  (List.range (end_row - start_row)).flatMap (fun j =>
    rowWrites src dstW dstC kernel radius ((start_row + j : ℕ) : ℤ))

/-- `blur_horizontal(src, dst, kernel, radius, start_row, end_row)`. -/
def blur_horizontal (src dst : Image) (kernel : List ℚ) (radius : ℕ)
    (start_row end_row : ℕ) : Image :=
  { dst with
    data := applyWrites dst.data (blurWrites src dst.width dst.channels kernel radius start_row end_row) }

/-- The stores of `transpose_image`:
`dst->data[(x * src->height + y)*4 + ch] = src->data[(y * src->width + x)*4 + ch]`. -/
def transposeWrites (src : Image) : List (ℤ × ℤ) :=
  (List.range src.height).flatMap (fun (y : ℕ) =>
    (List.range src.width).flatMap (fun (x : ℕ) =>
      (List.range 4).map (fun (ch : ℕ) =>
        (((x : ℤ) * src.height + (y : ℤ)) * 4 + (ch : ℤ),
          src.data (((y : ℤ) * src.width + (x : ℤ)) * 4 + (ch : ℤ))))))

/-- `transpose_image(src, dst)`. -/
def transpose_image (src dst : Image) : Image :=
  { dst with data := applyWrites dst.data (transposeWrites src) }

/-- The row partition built by `gaussian_blur` / `apply_kuwahara_filter`:
`rows_per_worker = total / num_workers`; worker `i` gets
`[i*rows_per_worker, (i+1)*rows_per_worker)`, the last worker's range instead
ends at `total`. -/
def partitions (total num_workers : ℕ) : List (ℕ × ℕ) :=
  (List.range num_workers).map (fun i =>
    (i * (total / num_workers),
      if i = num_workers - 1 then total else (i + 1) * (total / num_workers)))

/-- The body of `gaussian_blur` after kernel generation: phase 1 runs
`blur_horizontal` on each partition of the source rows (the workers write
pairwise disjoint rows and are joined before the transpose, so partition order
is a faithful linearisation), then transpose, then phase 2 on each partition of
the transposed rows, then transpose into `dst`.  `t1 t2 t3` are the
(uninitialised) contents of the three `malloc`ed temporary buffers. -/
def gaussian_blur_with_kernel (src dst : Image) (kernel : List ℚ)
    (radius num_workers : ℕ) (t1 t2 t3 : ℤ → ℤ) : Image :=
  let temp1 : Image := ⟨t1, src.width, src.height, 4⟩
  let temp1 := (partitions src.height num_workers).foldl
    (fun img p => blur_horizontal src img kernel radius p.1 p.2) temp1
  let temp2 : Image := ⟨t2, src.height, src.width, 4⟩
  let temp2 := transpose_image temp1 temp2
  let temp3 : Image := ⟨t3, src.height, src.width, 4⟩
  let temp3 := (partitions src.width num_workers).foldl
    (fun img p => blur_horizontal temp2 img kernel radius p.1 p.2) temp3
  transpose_image temp3 dst

/-- `gaussian_blur(src, dst, radius, num_workers)`. -/
def gaussian_blur (expf : ℚ → ℚ) (src dst : Image) (radius num_workers : ℕ)
    (t1 t2 t3 : ℤ → ℤ) : Image :=
  gaussian_blur_with_kernel src dst (generate_gaussian_kernel expf radius)
    radius num_workers t1 t2 t3

/-- The pixel value `src->data[((y-1)*w + (x-1))*4 + ch]` read by
`build_integral_images`, 0-indexed here: row `j`, column `i`. -/
def pixelChan (src : Image) (ch : ℕ) (j i : ℕ) : ℚ :=
  (src.data (((j : ℤ) * src.width + i) * 4 + ch) : ℚ)

/-- The summed-area table of `build_integral_images`: entry `(y, x)` of the
`(width+1) × (height+1)` table (row 0 and column 0 are the `calloc`ed zero
border), built by the recurrence
`sum[y][x] = val + sum[y-1][x] + sum[y][x-1] - sum[y-1][x-1]`.
The C code fills the array in row-major order so every cell it reads is
already computed; the recurrence below is that same computation. -/
def satSumF (f : ℕ → ℕ → ℚ) : ℕ → ℕ → ℚ
  | 0, _ => 0
  | _ + 1, 0 => 0
  | y + 1, x + 1 => f y x + satSumF f y (x + 1) + satSumF f (y + 1) x - satSumF f y x
termination_by y x => (y, x)

/-- `integral->sum` for one RGB channel, as a function of (row, col) into the
padded table.  Negative arguments never occur in defined-behaviour executions
reached by the claims; they are mapped to the zero border via `toNat`. -/
def integral_sum (src : Image) (ch : ℕ) : ℤ → ℤ → ℚ :=
  fun y x => satSumF (pixelChan src ch) y.toNat x.toNat

/-- `integral->sum_sq` for one RGB channel. -/
def integral_sum_sq (src : Image) (ch : ℕ) : ℤ → ℤ → ℚ :=
  fun y x => satSumF (fun j i => pixelChan src ch j i * pixelChan src ch j i) y.toNat x.toNat

/-- `get_region_stats(integral, x1, y1, x2, y2, &mean, &variance, channel)`,
returning `(mean, variance)`.  `sum`/`sumsq` are the per-channel table
functions (row, col). -/
def get_region_stats (sum sumsq : ℤ → ℤ → ℚ) (width height : ℤ)
    (x1 y1 x2 y2 : ℤ) : ℚ × ℚ :=
  let x1 := if x1 < 0 then 0 else x1
  let y1 := if y1 < 0 then 0 else y1
  let x2 := if x2 ≥ width then width - 1 else x2
  let y2 := if y2 ≥ height then height - 1 else y2
  let x1 := x1 + 1
  let y1 := y1 + 1
  let x2 := x2 + 1
  let y2 := y2 + 1
  let s := sum y2 x2 - sum y2 (x1 - 1) - sum (y1 - 1) x2 + sum (y1 - 1) (x1 - 1)
  let sq := sumsq y2 x2 - sumsq y2 (x1 - 1) - sumsq (y1 - 1) x2 + sumsq (y1 - 1) (x1 - 1)
  let area : ℚ := (((x2 - x1 + 1) * (y2 - y1 + 1) : ℤ) : ℚ)
  if 0 < area then
    let mean := s / area
    let v := sq / area - mean * mean
    (mean, if v < 0 then 0 else v)
  else (0, 0)

/-- `FLT_MAX`, the initial value of `min_variance[ch]`, as an exact rational. -/
def FLT_MAX : ℚ := (2 - 1 / 2 ^ 23) * 2 ^ 127

/-- The four quadrant rectangles of `kuwahara_filter_pixel`, in evaluation
order: NW, NE, SW, SE, each as `(x1, y1, x2, y2)`. -/
def quadrants (x y : ℤ) (radius : ℕ) : List (ℤ × ℤ × ℤ × ℤ) :=
  [(x - radius, y - radius, x, y),
   (x, y - radius, x + radius, y),
   (x - radius, y, x, y + radius),
   (x, y, x + radius, y + radius)]

/-- Per-quadrant evaluation of `kuwahara_filter_pixel`: the triple of RGB
variances and the triple of RGB means obtained from `get_region_stats` on
quadrant `q`. -/
def quad_eval (src : Image) (radius : ℕ) (x y : ℤ) (q : ℕ) :
    (ℚ × ℚ × ℚ) × (ℚ × ℚ × ℚ) :=
  let c := (quadrants x y radius).getD q (0, 0, 0, 0)
  let s0 := get_region_stats (integral_sum src 0) (integral_sum_sq src 0)
    src.width src.height c.1 c.2.1 c.2.2.1 c.2.2.2
  let s1 := get_region_stats (integral_sum src 1) (integral_sum_sq src 1)
    src.width src.height c.1 c.2.1 c.2.2.1 c.2.2.2
  let s2 := get_region_stats (integral_sum src 2) (integral_sum_sq src 2)
    src.width src.height c.1 c.2.1 c.2.2.1 c.2.2.2
  ((s0.2, s1.2, s2.2), (s0.1, s1.1, s2.1))

/-- The aggregate (R+G+B) variance of quadrant `q`, the score compared by
`kuwahara_filter_pixel`. -/
def quad_total (src : Image) (radius : ℕ) (x y : ℤ) (q : ℕ) : ℚ :=
  (quad_eval src radius x y q).1.1 + (quad_eval src radius x y q).1.2.1 +
    (quad_eval src radius x y q).1.2.2

/-- The selection loop of `kuwahara_filter_pixel`: starting from
`min_variance = {FLT_MAX, FLT_MAX, FLT_MAX}`, a quadrant replaces the current
best exactly when its aggregate variance is strictly smaller than the sum of
the stored per-channel variances of the current best. -/
def kuwahara_select (src : Image) (x y : ℤ) (radius : ℕ) :
    (ℚ × ℚ × ℚ) × (ℚ × ℚ × ℚ) :=
  (List.range 4).foldl (fun st q =>
    let e := quad_eval src radius x y q
    if e.1.1 + e.1.2.1 + e.1.2.2 < st.1.1 + st.1.2.1 + st.1.2.2 then e else st)
    ((FLT_MAX, FLT_MAX, FLT_MAX), (0, 0, 0))

/-- The stored RGB byte `(unsigned char)fminf(255.0f, fmaxf(0.0f, m))`:
clamp to `[0, 255]`, then the float-to-unsigned-char cast truncates toward
zero, i.e. takes the floor of the (nonnegative) clamped value. -/
def byte_of_mean (m : ℚ) : ℤ := ⌊min 255 (max 0 m)⌋

/-- Component `ch` of a triple, `ch ∈ {0,1,2}`. -/
def tripleGet (t : ℚ × ℚ × ℚ) : ℕ → ℚ
  | 0 => t.1
  | 1 => t.2.1
  | _ => t.2.2

/-- The byte `kuwahara_filter_pixel` stores in channel `ch` of pixel `(x,y)`:
channels 0–2 get the clamped best mean, channel 3 copies the source alpha. -/
def kuwahara_chan_value (src : Image) (radius : ℕ) (x y : ℤ) (ch : ℕ) : ℤ :=
  if ch = 3 then src.data ((y * src.width + x) * 4 + 3)
  else byte_of_mean (tripleGet (kuwahara_select src x y radius).2 ch)

/-- The four stores of `kuwahara_filter_pixel` for pixel `(x,y)`. -/
def kuwahara_pixel_writes (src : Image) (dstW radius : ℕ) (x y : ℤ) : List (ℤ × ℤ) :=
  (List.range 4).map (fun (ch : ℕ) =>
    ((y * dstW + x) * 4 + ch, kuwahara_chan_value src radius x y ch))

/-- The stores of `kuwahara_worker` for the row range `[start_row, end_row)`. -/
def kuwahara_worker_writes (src : Image) (dstW radius : ℕ)
    (start_row end_row : ℕ) : List (ℤ × ℤ) :=
  (List.range (end_row - start_row)).flatMap (fun (j : ℕ) =>
    (List.range src.width).flatMap (fun (x : ℕ) =>
      kuwahara_pixel_writes src dstW radius (x : ℤ) ((start_row + j : ℕ) : ℤ)))

/-- `apply_kuwahara_filter(src, dst, radius, num_workers)`: builds the SAT,
then each worker processes one partition of the rows (disjoint destination
rows, joined at the end, so partition order linearises every schedule). -/
def apply_kuwahara_filter (src dst : Image) (radius num_workers : ℕ) : Image :=
  { dst with
    data := applyWrites dst.data ((partitions src.height num_workers).flatMap (fun p => kuwahara_worker_writes src dst.width radius p.1 p.2)) }

/-- Clamp-to-edge sample coordinate of the specification:
`clamp(i, 0, w-1)`. -/
def clampIdx (w : ℕ) (i : ℤ) : ℤ := max 0 (min ((w : ℤ) - 1) i)

/-- The specification's row-convolution formula (§4.2):
`output[y,x,ch] = Σ_k source[y, clamp(x+k-radius, 0, width-1), ch] * kernel[k]`
— clamp-to-edge on both sides. -/
def spec_conv (src : Image) (kernel : List ℚ) (radius : ℕ) (y x : ℤ) (ch : ℕ) : ℚ :=
  ∑ k ∈ Finset.range (2 * radius + 1),
    (src.data ((y * src.width + clampIdx src.width (x + k - radius)) * 4 + ch) : ℚ) *
      kernel.getD k 0

/-- The specification's direct 2-D convolution with the outer product of the
1-D kernel with itself, clamp-to-edge in both coordinates (§8, separability). -/
def spec_conv2d (src : Image) (kernel : List ℚ) (radius : ℕ) (y x : ℤ) (ch : ℕ) : ℚ :=
  ∑ ky ∈ Finset.range (2 * radius + 1), ∑ kx ∈ Finset.range (2 * radius + 1),
    (kernel.getD ky 0 * kernel.getD kx 0) *
      (src.data ((clampIdx src.height (y + ky - radius) * src.width +
        clampIdx src.width (x + kx - radius)) * 4 + ch) : ℚ)

/-- Direct summation over the pixel rectangle `[a,b] × [c,d]` (columns × rows). -/
def rect_sum (f : ℕ → ℕ → ℚ) (a b c d : ℕ) : ℚ :=
  ∑ j ∈ Finset.Icc c d, ∑ i ∈ Finset.Icc a b, f j i

/-- Mean by direct summation over `[a,b] × [c,d]`. -/
def direct_mean (f : ℕ → ℕ → ℚ) (a b c d : ℕ) : ℚ :=
  rect_sum f a b c d / (((b + 1 - a) * (d + 1 - c) : ℕ) : ℚ)

/-- Variance by direct summation over `[a,b] × [c,d]`:
`E[f²] - (E[f])²`, floored at 0. -/
def direct_var (f : ℕ → ℕ → ℚ) (a b c d : ℕ) : ℚ :=
  let m := direct_mean f a b c d
  let v := rect_sum (fun j i => f j i * f j i) a b c d /
    (((b + 1 - a) * (d + 1 - c) : ℕ) : ℚ) - m * m
  if v < 0 then 0 else v

/-- The index of the first quadrant attaining the minimum of the four
aggregate variances (the specification's tie-break: NW preferred, then NE,
then SW). -/
def first_min_index (v0 v1 v2 v3 : ℚ) : ℕ :=
  if v0 ≤ v1 ∧ v0 ≤ v2 ∧ v0 ≤ v3 then 0
  else if v1 ≤ v2 ∧ v1 ≤ v3 then 1
  else if v2 ≤ v3 then 2
  else 3

/-- Radius-1 test kernel `[1/4, 1/2, 1/4]` (normalised, symmetric, positive). -/
def cxKernel : List ℚ := [1/4, 1/2, 1/4]

/-- A 1×2 source image: pixel (0,0) is (0,0,0,0), pixel row 1 is
(255,255,255,255). -/
def cxSrcC1 : Image := ⟨fun i => if 4 ≤ i ∧ i < 8 then 255 else 0, 1, 2, 4⟩

/-- A zeroed 1×2 destination image. -/
def cxDstC1 : Image := ⟨fun _ => 0, 1, 2, 4⟩

/-- A 1×1 image whose single pixel is (100,100,100,100). -/
def cxImgC3 : Image := ⟨fun i => if 0 ≤ i ∧ i < 4 then 100 else 0, 1, 1, 4⟩

/-- Radius-2 test kernel `[1/256, 63/256, 128/256, 63/256, 1/256]`
(normalised, symmetric, positive, unimodal). -/
def cxKernelC6 : List ℚ := [1/256, 63/256, 128/256, 63/256, 1/256]

/-- A 5×5 image, black except for a single bright pixel (255,255,255,255) at
the centre (2,2). -/
def cxSrcC6 : Image := ⟨fun i => if 48 ≤ i ∧ i < 52 then 255 else 0, 5, 5, 4⟩

/-- A zeroed 5×5 destination image. -/
def cxDstC6 : Image := ⟨fun _ => 0, 5, 5, 4⟩

/-- A 4×1 source image with assorted byte values (witness input). -/
def wSrcC1 : Image := ⟨fun i => if 0 ≤ i ∧ i < 16 then (i % 7) * 30 else 0, 4, 1, 4⟩

/-- A zeroed 4×1 destination image (witness input). -/
def wDstC1 : Image := ⟨fun _ => 0, 4, 1, 4⟩

/-- A 2×2 source image with assorted byte values (witness input). -/
def wSrc2 : Image := ⟨fun i => if 0 ≤ i ∧ i < 16 then (i % 5) * 50 else 0, 2, 2, 4⟩

/-- A zeroed 2×2 destination image (witness input). -/
def wDst2 : Image := ⟨fun _ => 0, 2, 2, 4⟩

/-- The constant colour (100,150,200,255) as a function of the channel. -/
def wColor : ℕ → ℤ := fun ch =>
  if ch = 0 then 100 else if ch = 1 then 150 else if ch = 2 then 200 else 255

/-- A 2×2 image every pixel of which is (100,150,200,255). -/
def wConst : Image :=
  ⟨fun i => if 0 ≤ i ∧ i < 16 then
      (if i % 4 = 0 then 100 else if i % 4 = 1 then 150 else if i % 4 = 2 then 200 else 255)
    else 0, 2, 2, 4⟩

/-! ### Generic lemmas about write lists -/

theorem applyWrites_append (init : ℤ → ℤ) (ws1 ws2 : List (ℤ × ℤ)) :
    applyWrites init (ws1 ++ ws2) = applyWrites (applyWrites init ws1) ws2 := by
  simp [applyWrites, List.foldl_append]

theorem applyWrites_of_forall (init : ℤ → ℤ) (ws : List (ℤ × ℤ)) (i v : ℤ)
    (h : ∀ p ∈ ws, p.1 = i → p.2 = v) :
    applyWrites init ws i = v ∨ applyWrites init ws i = init i := by
  induction ws generalizing init with
  | nil => right; rfl
  | cons q rest ih =>
    have hrest : ∀ p ∈ rest, p.1 = i → p.2 = v := fun p hp => h p (List.mem_cons_of_mem _ hp)
    have hstep : applyWrites init (q :: rest) i
        = applyWrites (Function.update init q.1 q.2) rest i := rfl
    rcases ih (Function.update init q.1 q.2) hrest with hv | hinit
    · left; rw [hstep, hv]
    · by_cases hq : q.1 = i
      · left
        rw [hstep, hinit, hq, Function.update_same]
        exact h q (List.mem_cons_self _ _) hq
      · right
        rw [hstep, hinit]
        exact Function.update_noteq (fun hne => hq hne.symm) _ _

theorem applyWrites_mem (init : ℤ → ℤ) (ws : List (ℤ × ℤ)) (i v : ℤ)
    (hmem : (i, v) ∈ ws) (h : ∀ p ∈ ws, p.1 = i → p.2 = v) :
    applyWrites init ws i = v := by
  induction ws generalizing init with
  | nil => cases hmem
  | cons q rest ih =>
    have hrest : ∀ p ∈ rest, p.1 = i → p.2 = v := fun p hp => h p (List.mem_cons_of_mem _ hp)
    have hstep : applyWrites init (q :: rest) i
        = applyWrites (Function.update init q.1 q.2) rest i := rfl
    rcases List.mem_cons.mp hmem with heq | hmemr
    · rcases applyWrites_of_forall (Function.update init q.1 q.2) rest i v hrest with hv | hinit
      · rw [hstep, hv]
      · rw [hstep, hinit, ← heq, Function.update_same]
    · rw [hstep]
      exact ih (Function.update init q.1 q.2) hmemr hrest

theorem euclid_pair_unique {W y1 x1 y2 x2 : ℤ} (hx1 : 0 ≤ x1) (hx1w : x1 < W)
    (hx2 : 0 ≤ x2) (hx2w : x2 < W) (h : y1 * W + x1 = y2 * W + x2) :
    y1 = y2 ∧ x1 = x2 := by
  have hW : 0 < W := lt_of_le_of_lt hx1 hx1w
  have hy : y1 = y2 := by
    by_contra hne
    rcases lt_or_gt_of_ne hne with hlt | hlt
    · have h1 : (y1 + 1) * W ≤ y2 * W := mul_le_mul_of_nonneg_right (by omega) hW.le
      have h2 : (y1 + 1) * W = y1 * W + W := by ring
      linarith
    · have h1 : (y2 + 1) * W ≤ y1 * W := mul_le_mul_of_nonneg_right (by omega) hW.le
      have h2 : (y2 + 1) * W = y2 * W + W := by ring
      linarith
  refine ⟨hy, ?_⟩
  rw [hy] at h
  linarith

theorem flatMap_congr_mem {α β : Type} (l : List α) (f g : α → List β)
    (h : ∀ a ∈ l, f a = g a) : l.flatMap f = l.flatMap g := by
  induction l with
  | nil => rfl
  | cons a t ih =>
    simp only [List.flatMap_cons]
    rw [h a (List.mem_cons_self _ _), ih (fun b hb => h b (List.mem_cons_of_mem _ hb))]

theorem map_flatMap_comp {α β γ : Type} (l : List α) (f : α → β) (g : β → List γ) :
    (l.map f).flatMap g = l.flatMap (fun a => g (f a)) := by
  induction l with
  | nil => rfl
  | cons a t ih => simp only [List.map_cons, List.flatMap_cons, ih]

theorem flatMap_cuts (c : ℕ → ℕ) (k : ℕ) (h0 : c 0 = 0)
    (hmono : ∀ i, i < k → c i ≤ c (i + 1)) :
    (List.range k).flatMap (fun i => (List.range (c (i + 1) - c i)).map (fun j => c i + j))
      = List.range (c k) := by
  induction k with
  | zero => simp [h0]
  | succ k ih =>
    rw [List.range_succ, List.flatMap_append,
      ih (fun i hi => hmono i (Nat.lt_succ_of_lt hi))]
    have h1 : c k ≤ c (k + 1) := hmono k (Nat.lt_succ_self k)
    have h2 : c k + (c (k + 1) - c k) = c (k + 1) := by omega
    rw [← h2, List.range_add]
    simp [List.flatMap_cons]

/-! ### The row partition -/

theorem partitions_getD (total k i : ℕ) (hi : i < k) :
    (partitions total k).getD i (0, 0)
      = (i * (total / k), if i = k - 1 then total else (i + 1) * (total / k)) := by
  have hlen : i < (partitions total k).length := by
    simp [partitions, hi]
  rw [List.getD_eq_getElem _ _ hlen]
  simp [partitions]

theorem partitions_rows (total k : ℕ) (hk : 1 ≤ k) :
    (partitions total k).flatMap (fun p => (List.range (p.2 - p.1)).map (fun j => p.1 + j))
      = List.range total := by
  have h0 : (fun i => if i = k then total else i * (total / k)) 0 = 0 := by
    simp only []
    rw [if_neg (by omega)]
    simp
  have hmono : ∀ i, i < k →
      (fun i => if i = k then total else i * (total / k)) i
        ≤ (fun i => if i = k then total else i * (total / k)) (i + 1) := by
    intro i hi
    simp only []
    rw [if_neg (by omega)]
    by_cases h1 : i + 1 = k
    · rw [if_pos h1]
      calc i * (total / k) ≤ k * (total / k) := Nat.mul_le_mul_right _ (by omega)
      _ = total / k * k := Nat.mul_comm _ _
      _ ≤ total := Nat.div_mul_le_self total k
    · rw [if_neg h1]
      exact Nat.mul_le_mul_right _ (by omega)
  have hcut := flatMap_cuts (fun i => if i = k then total else i * (total / k)) k h0 hmono
  have hck : (fun i => if i = k then total else i * (total / k)) k = total := by simp
  rw [hck] at hcut
  rw [← hcut]
  unfold partitions
  rw [map_flatMap_comp]
  apply flatMap_congr_mem
  intro i hi
  have hik : i < k := List.mem_range.mp hi
  have hp1 : (i * (total / k), if i = k - 1 then total else (i + 1) * (total / k)).1
      = (fun i => if i = k then total else i * (total / k)) i := by
    simp only []
    rw [if_neg (by omega)]
  have hp2 : (i * (total / k), if i = k - 1 then total else (i + 1) * (total / k)).2
      = (fun i => if i = k then total else i * (total / k)) (i + 1) := by
    simp only []
    by_cases h1 : i = k - 1
    · rw [if_pos h1, if_pos (by omega)]
    · rw [if_neg h1, if_neg (by omega)]
  rw [hp1, hp2]

/-- C5: for every `totalRows ≥ 0` and `workerCount ≥ 1`, the generated
partitions cover `[0, totalRows)` exactly (no gaps), are pairwise disjoint
(no overlapping destination rows within a phase), and the last partition's
size is at least every other partition's size. -/
theorem C5_partition_coverage (total k : ℕ) (hk : 1 ≤ k) :
    (∀ r, r < total ↔ ∃ p ∈ partitions total k, p.1 ≤ r ∧ r < p.2)
    ∧ (∀ i j, i < k → j < k → i ≠ j → ∀ r,
        ¬(((partitions total k).getD i (0, 0)).1 ≤ r
          ∧ r < ((partitions total k).getD i (0, 0)).2
          ∧ ((partitions total k).getD j (0, 0)).1 ≤ r
          ∧ r < ((partitions total k).getD j (0, 0)).2))
    ∧ (∀ i, i < k →
        ((partitions total k).getD i (0, 0)).2 - ((partitions total k).getD i (0, 0)).1
          ≤ ((partitions total k).getD (k - 1) (0, 0)).2
            - ((partitions total k).getD (k - 1) (0, 0)).1) := by
  have hrpwk : k * (total / k) ≤ total := by
    calc k * (total / k) = total / k * k := Nat.mul_comm _ _
    _ ≤ total := Nat.div_mul_le_self total k
  refine ⟨?_, ?_, ?_⟩
  · intro r
    constructor
    · intro hr
      by_cases hz : total / k = 0
      · refine ⟨(( k - 1) * (total / k), total), ?_, ?_, hr⟩
        · exact List.mem_map.mpr ⟨k - 1, List.mem_range.mpr (by omega), by simp⟩
        · simp [hz]
      · have hzpos : 0 < total / k := Nat.pos_of_ne_zero hz
        by_cases hq : r / (total / k) < k - 1
        · refine ⟨(r / (total / k) * (total / k),
            (r / (total / k) + 1) * (total / k)), ?_, ?_, ?_⟩
          · refine List.mem_map.mpr ⟨r / (total / k),
              List.mem_range.mpr (lt_of_lt_of_le hq (Nat.sub_le k 1)), ?_⟩
            rw [if_neg (Nat.ne_of_lt hq)]
          · exact Nat.div_mul_le_self r (total / k)
          · have hdm : total / k * (r / (total / k)) + r % (total / k) = r :=
              Nat.div_add_mod r (total / k)
            have hmlt : r % (total / k) < total / k := Nat.mod_lt _ hzpos
            have hr2 : (r / (total / k) + 1) * (total / k)
                = total / k * (r / (total / k)) + total / k := by ring
            linarith
        · have hq' : k - 1 ≤ r / (total / k) := Nat.le_of_not_lt hq
          refine ⟨((k - 1) * (total / k), total), ?_, ?_, hr⟩
          · exact List.mem_map.mpr ⟨k - 1, List.mem_range.mpr (by omega), by simp⟩
          · calc (k - 1) * (total / k) ≤ r / (total / k) * (total / k) :=
              Nat.mul_le_mul_right _ hq'
            _ ≤ r := Nat.div_mul_le_self r (total / k)
    · rintro ⟨p, hp, hp1, hp2⟩
      rcases List.mem_map.mp hp with ⟨i, hirange, hpeq⟩
      have hik : i < k := List.mem_range.mp hirange
      subst hpeq
      by_cases h1 : i = k - 1
      · simp only [if_pos h1] at hp2
        exact hp2
      · simp only [if_neg h1] at hp2
        have h2 : (i + 1) * (total / k) ≤ k * (total / k) :=
          Nat.mul_le_mul_right _ (by omega)
        calc r < (i + 1) * (total / k) := hp2
        _ ≤ k * (total / k) := h2
        _ ≤ total := hrpwk
  · have key : ∀ i j, i < j → j < k → ∀ r,
        ¬(((partitions total k).getD i (0, 0)).1 ≤ r
          ∧ r < ((partitions total k).getD i (0, 0)).2
          ∧ ((partitions total k).getD j (0, 0)).1 ≤ r
          ∧ r < ((partitions total k).getD j (0, 0)).2) := by
      rintro i j hij hjk r ⟨_, hri2, hrj1, _⟩
      rw [partitions_getD total k i (by omega)] at hri2
      rw [partitions_getD total k j hjk] at hrj1
      simp only [if_neg (show i ≠ k - 1 by omega)] at hri2
      have hend : (i + 1) * (total / k) ≤ j * (total / k) :=
        Nat.mul_le_mul_right _ (by omega)
      simp only [] at hrj1
      omega
    intro i j hik hjk hij r hcon
    rcases Nat.lt_or_ge i j with hlt | hge
    · exact key i j hlt hjk r hcon
    · have hlt : j < i := by omega
      exact key j i hlt hik r ⟨hcon.2.2.1, hcon.2.2.2, hcon.1, hcon.2.1⟩
  · intro i hik
    have hlastval : ((partitions total k).getD (k - 1) (0, 0))
        = ((k - 1) * (total / k), total) := by
      rw [partitions_getD total k (k - 1) (by omega)]
      simp
    rw [partitions_getD total k i hik, hlastval]
    by_cases h1 : i = k - 1
    · subst h1
      simp
    · have hproj : ((i * (total / k),
          if i = k - 1 then total else (i + 1) * (total / k)) : ℕ × ℕ).2
            - ((i * (total / k),
          if i = k - 1 then total else (i + 1) * (total / k)) : ℕ × ℕ).1
          = (i + 1) * (total / k) - i * (total / k) := by
        simp only [if_neg h1]
      rw [hproj]
      have hsz : (i + 1) * (total / k) - i * (total / k) = total / k := by
        have h2 : (i + 1) * (total / k) = i * (total / k) + total / k := by ring
        rw [h2, Nat.add_sub_cancel_left]
      rw [hsz]
      show total / k ≤ total - (k - 1) * (total / k)
      have h3 : (k - 1) * (total / k) + total / k = k * (total / k) := by
        have h4 : k - 1 + 1 = k := by omega
        calc (k - 1) * (total / k) + total / k = (k - 1 + 1) * (total / k) := by ring
        _ = k * (total / k) := by rw [h4]
      have h5 : (k - 1) * (total / k) ≤ total :=
        le_trans (le_trans (Nat.le_add_right _ _) (le_of_eq h3)) hrpwk
      rw [le_tsub_iff_right h5]
      linarith

/-- Witness for C5 at `total = 10`, `k = 3`. -/
theorem C5_partition_coverage_witness :
    1 ≤ 3 ∧ ((∀ r, r < 10 ↔ ∃ p ∈ partitions 10 3, p.1 ≤ r ∧ r < p.2)
    ∧ (∀ i j, i < 3 → j < 3 → i ≠ j → ∀ r,
        ¬(((partitions 10 3).getD i (0, 0)).1 ≤ r
          ∧ r < ((partitions 10 3).getD i (0, 0)).2
          ∧ ((partitions 10 3).getD j (0, 0)).1 ≤ r
          ∧ r < ((partitions 10 3).getD j (0, 0)).2))
    ∧ (∀ i, i < 3 →
        ((partitions 10 3).getD i (0, 0)).2 - ((partitions 10 3).getD i (0, 0)).1
          ≤ ((partitions 10 3).getD (3 - 1) (0, 0)).2
            - ((partitions 10 3).getD (3 - 1) (0, 0)).1)) :=
  ⟨by decide, C5_partition_coverage 10 3 (by decide)⟩

/-! ### Kernel generation -/

theorem list_sum_map_div (l : List ℚ) (s : ℚ) :
    (l.map (fun w => w / s)).sum = l.sum / s := by
  induction l with
  | nil => simp
  | cons a t ih => simp [ih, add_div]

theorem gaussian_raw_length (expf : ℚ → ℚ) (radius : ℕ) :
    (gaussian_raw expf radius).length = 2 * radius + 1 := by
  rw [gaussian_raw, List.length_map, List.length_range]

theorem gaussian_raw_sum_pos (expf : ℚ → ℚ) (radius : ℕ) (hpos : ∀ q, 0 < expf q) :
    0 < (gaussian_raw expf radius).sum := by
  apply List.sum_pos
  · intro a ha
    rcases List.mem_map.mp ha with ⟨i, _, hi⟩
    rw [← hi]
    exact hpos _
  · intro hnil
    have := congrArg List.length hnil
    rw [gaussian_raw_length] at this
    simp at this

/-- C7: for every `radius ≥ 1` (and any positive model of `expf`), the
generated kernel has length `2*radius+1`, its weights sum to exactly 1 in
exact arithmetic, and index `radius` holds the centre tap `x = 0`, i.e. the
normalised weight `expf 0 / Σ raw`. -/
theorem C7_kernel_normalization (expf : ℚ → ℚ) (radius : ℕ)
    (hpos : ∀ q, 0 < expf q) (hr : 1 ≤ radius) :
    (generate_gaussian_kernel expf radius).length = 2 * radius + 1
    ∧ (generate_gaussian_kernel expf radius).sum = 1
    ∧ (generate_gaussian_kernel expf radius).getD radius 0
        = expf 0 / (gaussian_raw expf radius).sum := by
  have hsumpos := gaussian_raw_sum_pos expf radius hpos
  refine ⟨?_, ?_, ?_⟩
  · rw [generate_gaussian_kernel, List.length_map, gaussian_raw_length]
  · rw [generate_gaussian_kernel, list_sum_map_div]
    exact div_self (ne_of_gt hsumpos)
  · have hlen : radius < (generate_gaussian_kernel expf radius).length := by
      rw [generate_gaussian_kernel, List.length_map, gaussian_raw_length]
      omega
    rw [List.getD_eq_getElem _ _ hlen]
    unfold generate_gaussian_kernel gaussian_raw
    simp only [List.getElem_map, List.getElem_range]
    norm_num

/-- Witness for C7 with the positive model `expf = const 1` and `radius = 1`. -/
theorem C7_kernel_normalization_witness :
    (∀ q : ℚ, 0 < (fun _ : ℚ => (1 : ℚ)) q) ∧ 1 ≤ 1
    ∧ ((generate_gaussian_kernel (fun _ : ℚ => 1) 1).length = 2 * 1 + 1
      ∧ (generate_gaussian_kernel (fun _ : ℚ => 1) 1).sum = 1
      ∧ (generate_gaussian_kernel (fun _ : ℚ => 1) 1).getD 1 0
          = (fun _ : ℚ => (1 : ℚ)) 0 / (gaussian_raw (fun _ : ℚ => 1) 1).sum) :=
  ⟨fun _ => one_pos, le_rfl,
    C7_kernel_normalization (fun _ : ℚ => 1) 1 (fun _ => one_pos) le_rfl⟩

/-- C10: the divisor `2*sigma*sigma` of the kernel generator is zero at
`radius = 0` (the `0/0` branch, with no identity-kernel special case guarding
it) and positive for every `radius ≥ 1`; the normalisation divisor (the weight
sum) is positive whenever `expf` is positive; and `gaussian_blur` at
`radius = 0` invokes the kernel generator at radius 0 unconditionally, so the
division-by-zero branch is reachable from the public entry point. -/
theorem C10_radius_zero_divisor :
    kernel_divisor 0 = 0
    ∧ (∀ radius : ℕ, 1 ≤ radius → 0 < kernel_divisor radius)
    ∧ (∀ (expf : ℚ → ℚ) (radius : ℕ), (∀ q, 0 < expf q) →
        0 < (gaussian_raw expf radius).sum)
    ∧ (∀ (expf : ℚ → ℚ) (src dst : Image) (num_workers : ℕ) (t1 t2 t3 : ℤ → ℤ),
        gaussian_blur expf src dst 0 num_workers t1 t2 t3
          = gaussian_blur_with_kernel src dst (generate_gaussian_kernel expf 0)
              0 num_workers t1 t2 t3) := by
  refine ⟨?_, ?_, ?_, ?_⟩
  · norm_num [kernel_divisor]
  · intro radius hr
    have hq : (0 : ℚ) < (radius : ℚ) := by
      exact_mod_cast Nat.lt_of_lt_of_le Nat.zero_lt_one hr
    have h3 : (0 : ℚ) < (radius : ℚ) / 3 := by positivity
    rw [kernel_divisor]
    positivity
  · intro expf radius hpos
    exact gaussian_raw_sum_pos expf radius hpos
  · intro expf src dst num_workers t1 t2 t3
    rfl

/-- Witness for C10: the divisor is zero at radius 0, positive at radius 1. -/
theorem C10_radius_zero_divisor_witness :
    kernel_divisor 0 = 0 ∧ 0 < kernel_divisor 1 :=
  ⟨C10_radius_zero_divisor.1, C10_radius_zero_divisor.2.1 1 le_rfl⟩

/-! ### Summed-area table -/

theorem satSumF_eq (f : ℕ → ℕ → ℚ) : ∀ y x, satSumF f y x
    = ∑ j ∈ Finset.range y, ∑ i ∈ Finset.range x, f j i := by
  intro y
  induction y with
  | zero => intro x; simp [satSumF]
  | succ y ihy =>
    intro x
    induction x with
    | zero => simp [satSumF]
    | succ x ihx =>
      rw [satSumF, ihy, ihy, ihx]
      simp only [Finset.sum_range_succ]
      ring

theorem satSumF_rect (f : ℕ → ℕ → ℚ) (a b c d : ℕ) (hab : a ≤ b + 1) (hcd : c ≤ d + 1) :
    satSumF f (d + 1) (b + 1) - satSumF f (d + 1) a - satSumF f c (b + 1) + satSumF f c a
      = ∑ j ∈ Finset.Icc c d, ∑ i ∈ Finset.Icc a b, f j i := by
  simp only [satSumF_eq]
  have houter : ∀ g : ℕ → ℚ, ∑ j ∈ Finset.Icc c d, g j
      = ∑ j ∈ Finset.range (d + 1), g j - ∑ j ∈ Finset.range c, g j := by
    intro g
    rw [← Nat.Ico_succ_right, Finset.sum_Ico_eq_sub _ hcd]
  have hinner : ∀ j, ∑ i ∈ Finset.Icc a b, f j i
      = ∑ i ∈ Finset.range (b + 1), f j i - ∑ i ∈ Finset.range a, f j i := by
    intro j
    rw [← Nat.Ico_succ_right, Finset.sum_Ico_eq_sub _ hab]
  rw [houter (fun j => ∑ i ∈ Finset.Icc a b, f j i)]
  simp only [hinner, Finset.sum_sub_distrib]
  ring

/-- Shared read-out of `get_region_stats` over the built SAT: on any rectangle
that is a genuine rectangle (`x1 ≤ x2`, `y1 ≤ y2`) intersecting the image
(`x1 < width`, `y1 < height`, `x2 ≥ 0`, `y2 ≥ 0`), the result is the direct
mean/variance over the clamped rectangle. -/
theorem region_stats_direct (src : Image) (ch : ℕ) (x1 y1 x2 y2 : ℤ)
    (hw : 0 < src.width) (hh : 0 < src.height)
    (hx12 : x1 ≤ x2) (hy12 : y1 ≤ y2)
    (hx1 : x1 < src.width) (hy1 : y1 < src.height)
    (hx2 : 0 ≤ x2) (hy2 : 0 ≤ y2) :
    get_region_stats (integral_sum src ch) (integral_sum_sq src ch)
      src.width src.height x1 y1 x2 y2
      = (direct_mean (pixelChan src ch) x1.toNat (min (src.width - 1) x2.toNat)
          y1.toNat (min (src.height - 1) y2.toNat),
        direct_var (pixelChan src ch) x1.toNat (min (src.width - 1) x2.toNat)
          y1.toNat (min (src.height - 1) y2.toNat)) := by
  have hcx1 : (if x1 < 0 then (0 : ℤ) else x1) = (x1.toNat : ℤ) := by
    split_ifs with h <;> omega
  have hcy1 : (if y1 < 0 then (0 : ℤ) else y1) = (y1.toNat : ℤ) := by
    split_ifs with h <;> omega
  have hcx2 : (if x2 ≥ (src.width : ℤ) then (src.width : ℤ) - 1 else x2)
      = ((min (src.width - 1) x2.toNat : ℕ) : ℤ) := by
    split_ifs with h <;> omega
  have hcy2 : (if y2 ≥ (src.height : ℤ) then (src.height : ℤ) - 1 else y2)
      = ((min (src.height - 1) y2.toNat : ℕ) : ℤ) := by
    split_ifs with h <;> omega
  have hab : x1.toNat ≤ min (src.width - 1) x2.toNat + 1 := by omega
  have hcd : y1.toNat ≤ min (src.height - 1) y2.toNat + 1 := by omega
  have hableb : x1.toNat ≤ min (src.width - 1) x2.toNat := by omega
  have hcled : y1.toNat ≤ min (src.height - 1) y2.toNat := by omega
  have htn1 : ∀ n : ℕ, ((n : ℤ) + 1).toNat = n + 1 := by intro n; omega
  have htn2 : ∀ n : ℕ, ((n : ℤ) + 1 - 1).toNat = n := by intro n; omega
  rw [get_region_stats]
  rw [hcx1, hcy1, hcx2, hcy2]
  simp only [integral_sum, integral_sum_sq, htn1, htn2]
  rw [satSumF_rect (pixelChan src ch) _ _ _ _ hab hcd,
    satSumF_rect (fun j i => pixelChan src ch j i * pixelChan src ch j i) _ _ _ _ hab hcd]
  have harea : ((((min (src.width - 1) x2.toNat : ℕ) : ℤ) + 1 - ((x1.toNat : ℤ) + 1) + 1) *
        ((((min (src.height - 1) y2.toNat : ℕ) : ℤ) + 1 - ((y1.toNat : ℤ) + 1) + 1))
      = (((min (src.width - 1) x2.toNat + 1 - x1.toNat) *
          (min (src.height - 1) y2.toNat + 1 - y1.toNat) : ℕ) : ℤ)) := by
    push_cast [Nat.cast_sub hab, Nat.cast_sub hcd]
    ring
  rw [harea]
  have hpos : (0 : ℚ) < (((min (src.width - 1) x2.toNat + 1 - x1.toNat) *
      (min (src.height - 1) y2.toNat + 1 - y1.toNat) : ℕ) : ℤ) := by
    have h1 : (0 : ℤ) < (((min (src.width - 1) x2.toNat + 1 - x1.toNat) *
        (min (src.height - 1) y2.toNat + 1 - y1.toNat) : ℕ) : ℤ) := by
      have h2 : 0 < min (src.width - 1) x2.toNat + 1 - x1.toNat := by omega
      have h3 : 0 < min (src.height - 1) y2.toNat + 1 - y1.toNat := by omega
      exact_mod_cast Nat.mul_pos h2 h3
    exact_mod_cast h1
  rw [if_pos hpos]
  rw [direct_mean, direct_var, rect_sum, rect_sum]
  simp only [Int.cast_natCast]
  rfl

/-- C3 (amended): `get_region_stats` clamps `x1, y1` from below at 0 and
`x2, y2` from above at `width-1`/`height-1` (one-sided, not to the full
range); for every rectangle with `x1 ≤ x2`, `y1 ≤ y2` that intersects the
image (`x1 < width`, `y1 < height`, `x2 ≥ 0`, `y2 ≥ 0`) it returns exactly
the mean and variance obtained by direct summation over the clamped
rectangle — including rectangles touching each border and interior ones. -/
theorem C3_region_stats_direct (src : Image) (ch : ℕ) (x1 y1 x2 y2 : ℤ)
    (hw : 0 < src.width) (hh : 0 < src.height)
    (hx12 : x1 ≤ x2) (hy12 : y1 ≤ y2)
    (hx1 : x1 < src.width) (hy1 : y1 < src.height)
    (hx2 : 0 ≤ x2) (hy2 : 0 ≤ y2) :
    get_region_stats (integral_sum src ch) (integral_sum_sq src ch)
      src.width src.height x1 y1 x2 y2
      = (direct_mean (pixelChan src ch) x1.toNat (min (src.width - 1) x2.toNat)
          y1.toNat (min (src.height - 1) y2.toNat),
        direct_var (pixelChan src ch) x1.toNat (min (src.width - 1) x2.toNat)
          y1.toNat (min (src.height - 1) y2.toNat)) :=
  region_stats_direct src ch x1 y1 x2 y2 hw hh hx12 hy12 hx1 hy1 hx2 hy2

/-- Counterexample to C3 as stated: on the 1×1 image with pixel value 100,
the rectangle `(x1,y1,x2,y2) = (1,0,1,0)` clamped to
`[0,width-1] × [0,height-1]` is the single pixel, whose direct mean is 100 —
but the code clamps `x1` only from below, computes a non-positive area, and
returns `(0, 0)`. -/
theorem C3_region_stats_counterexample :
    get_region_stats (integral_sum cxImgC3 0) (integral_sum_sq cxImgC3 0)
        cxImgC3.width cxImgC3.height 1 0 1 0
      ≠ (direct_mean (pixelChan cxImgC3 0) 0 0 0 0,
         direct_var (pixelChan cxImgC3 0) 0 0 0 0) := by
  norm_num [get_region_stats, direct_mean, direct_var, rect_sum, pixelChan, cxImgC3,
    Prod.ext_iff]

/-- Witness for C3 (amended) on a 2×2 image with a border-touching rectangle
whose raw coordinates stick out past the right edge. -/
theorem C3_region_stats_witness :
    (0 < wSrc2.width ∧ 0 < wSrc2.height ∧ (0 : ℤ) ≤ 5 ∧ (0 : ℤ) ≤ 1
      ∧ (0 : ℤ) < wSrc2.width ∧ (0 : ℤ) < wSrc2.height)
    ∧ get_region_stats (integral_sum wSrc2 1) (integral_sum_sq wSrc2 1)
        wSrc2.width wSrc2.height 0 0 5 1
      = (direct_mean (pixelChan wSrc2 1) (0 : ℤ).toNat (min (wSrc2.width - 1) (5 : ℤ).toNat)
          (0 : ℤ).toNat (min (wSrc2.height - 1) (1 : ℤ).toNat),
        direct_var (pixelChan wSrc2 1) (0 : ℤ).toNat (min (wSrc2.width - 1) (5 : ℤ).toNat)
          (0 : ℤ).toNat (min (wSrc2.height - 1) (1 : ℤ).toNat)) :=
  ⟨⟨by norm_num [wSrc2], by norm_num [wSrc2], by norm_num, by norm_num,
      by norm_num [wSrc2], by norm_num [wSrc2]⟩,
    C3_region_stats_direct wSrc2 1 0 0 5 1 (by norm_num [wSrc2]) (by norm_num [wSrc2])
      (by norm_num) (by norm_num) (by norm_num [wSrc2]) (by norm_num [wSrc2])
      (by norm_num) (by norm_num)⟩

/-! ### Reading back `blur_horizontal` -/

theorem convSumLeft_eq_spec (src : Image) (kernel : List ℚ) (radius : ℕ) (y x : ℤ)
    (ch : ℕ) (h2r : 2 * radius ≤ src.width) (hx0 : 0 ≤ x) (hxr : x < radius) :
    convSumLeft src kernel radius y x ch = spec_conv src kernel radius y x ch := by
  unfold convSumLeft spec_conv
  apply Finset.sum_congr rfl
  intro k hk
  have hkn := Finset.mem_range.mp hk
  have hidx : clampLow (x + k - radius) = clampIdx src.width (x + k - radius) := by
    have hs : x + k - radius ≤ (src.width : ℤ) - 1 := by omega
    rw [clampIdx, min_eq_right hs, clampLow]
    split_ifs with h
    · exact (max_eq_left (by omega)).symm
    · exact (max_eq_right (by omega)).symm
  rw [hidx]

theorem convSumMid_eq_spec (src : Image) (kernel : List ℚ) (radius : ℕ) (y x : ℤ)
    (ch : ℕ) (hxr : (radius : ℤ) ≤ x) (hxw : x + radius < src.width) :
    convSumMid src kernel radius y x ch = spec_conv src kernel radius y x ch := by
  unfold convSumMid spec_conv
  apply Finset.sum_congr rfl
  intro k hk
  have hkn := Finset.mem_range.mp hk
  have hidx : x + k - radius = clampIdx src.width (x + k - radius) := by
    have hs : x + k - radius ≤ (src.width : ℤ) - 1 := by omega
    rw [clampIdx, min_eq_right hs]
    exact (max_eq_right (by omega)).symm
  rw [← hidx]

theorem convSumRight_eq_spec (src : Image) (kernel : List ℚ) (radius : ℕ) (y x : ℤ)
    (ch : ℕ) (hxr : (radius : ℤ) ≤ x) (hxw : x < src.width) :
    convSumRight src kernel radius y x ch = spec_conv src kernel radius y x ch := by
  unfold convSumRight spec_conv
  apply Finset.sum_congr rfl
  intro k hk
  have hkn := Finset.mem_range.mp hk
  have hidx : clampHigh src.width (x + k - radius)
      = clampIdx src.width (x + k - radius) := by
    rw [clampHigh, clampIdx]
    split_ifs with h
    · rw [min_eq_left (by omega)]
      exact (max_eq_right (by omega)).symm
    · rw [min_eq_right (by omega)]
      exact (max_eq_right (by omega)).symm
  rw [hidx]

theorem rowWrites_decode (src : Image) (kernel : List ℚ) (radius : ℕ) (y' : ℤ)
    (p : ℤ × ℤ) (hp : p ∈ rowWrites src src.width 4 kernel radius y') :
    ∃ x' : ℕ, x' < src.width ∧ ∃ ch' : ℕ, ch' < 4 ∧
      p.1 = (y' * src.width + (x' : ℤ)) * 4 + (ch' : ℤ) ∧
      (((x' : ℤ) < radius
          ∧ p.2 = roundAway (convSumLeft src kernel radius y' x' ch'))
        ∨ ((radius : ℤ) ≤ x' ∧ (x' : ℤ) + radius < src.width
          ∧ p.2 = roundAway (convSumMid src kernel radius y' x' ch'))
        ∨ ((radius : ℤ) ≤ x' ∧ (src.width : ℤ) ≤ (x' : ℤ) + radius
          ∧ p.2 = roundAway (convSumRight src kernel radius y' x' ch'))) := by
  simp only [rowWrites, List.mem_append] at hp
  rcases hp with (hpl | hpm) | hpr
  · simp only [leftWrites, List.mem_flatMap, List.mem_map, List.mem_range] at hpl
    obtain ⟨x', hx', ch', hch', hpeq⟩ := hpl
    refine ⟨x', by omega, ch', hch', ?_, Or.inl ⟨by omega, ?_⟩⟩
    · rw [← hpeq]
    · rw [← hpeq]
  · simp only [midWrites, List.mem_flatMap, List.mem_map, List.mem_range] at hpm
    obtain ⟨i, hi, ch', hch', hpeq⟩ := hpm
    refine ⟨radius + i, by omega, ch', hch', ?_, Or.inr (Or.inl ⟨by omega, by push_cast; omega, ?_⟩)⟩
    · rw [← hpeq]
      push_cast
      ring_nf
    · rw [← hpeq]
      have hcast : ((radius : ℤ) + (i : ℤ)) = ((radius + i : ℕ) : ℤ) := by push_cast; ring
      rw [hcast]
  · simp only [rightWrites, List.mem_flatMap, List.mem_range] at hpr
    obtain ⟨i, hi, hpin⟩ := hpr
    by_cases hcond : ((src.width : ℤ) - radius + (i : ℤ)) < radius
    · rw [if_pos hcond] at hpin
      cases hpin
    · rw [if_neg hcond] at hpin
      simp only [List.mem_map, List.mem_range] at hpin
      obtain ⟨ch', hch', hpeq⟩ := hpin
      have hx0 : (0 : ℤ) ≤ (src.width : ℤ) - radius + (i : ℤ) := by omega
      refine ⟨((src.width : ℤ) - radius + (i : ℤ)).toNat, by omega, ch', hch', ?_,
        Or.inr (Or.inr ⟨by omega, by omega, ?_⟩)⟩
      · rw [← hpeq]
        have hcast : ((((src.width : ℤ) - radius + (i : ℤ)).toNat : ℤ))
            = (src.width : ℤ) - radius + (i : ℤ) := by omega
        rw [hcast]
        push_cast
        ring
      · rw [← hpeq]
        have hcast : ((((src.width : ℤ) - radius + (i : ℤ)).toNat : ℤ))
            = (src.width : ℤ) - radius + (i : ℤ) := by omega
        rw [hcast]

theorem rowWrites_mem (src : Image) (kernel : List ℚ) (radius : ℕ) (y' : ℤ)
    (x ch : ℕ) (hx : x < src.width) (hch : ch < 4) (h2r : 2 * radius ≤ src.width) :
    ((y' * src.width + (x : ℤ)) * 4 + (ch : ℤ),
      roundAway (spec_conv src kernel radius y' x ch))
        ∈ rowWrites src src.width 4 kernel radius y' := by
  simp only [rowWrites, List.mem_append]
  by_cases hxl : x < radius
  · refine Or.inl (Or.inl ?_)
    simp only [leftWrites, List.mem_flatMap, List.mem_map, List.mem_range]
    refine ⟨x, by omega, ch, hch, ?_⟩
    rw [convSumLeft_eq_spec src kernel radius y' x ch h2r (by omega) (by omega)]
  · by_cases hxm : x + radius < src.width
    · refine Or.inl (Or.inr ?_)
      simp only [midWrites, List.mem_flatMap, List.mem_map, List.mem_range]
      refine ⟨x - radius, by omega, ch, hch, ?_⟩
      have hcast : ((radius : ℤ) + ((x - radius : ℕ) : ℤ)) = ((x : ℕ) : ℤ) := by omega
      rw [hcast,
        convSumMid_eq_spec src kernel radius y' x ch (by omega) (by push_cast; omega)]
    · refine Or.inr ?_
      simp only [rightWrites, List.mem_flatMap, List.mem_range]
      refine ⟨x - (src.width - radius), by omega, ?_⟩
      have hcast : ((src.width : ℤ) - radius + ((x - (src.width - radius) : ℕ) : ℤ))
          = ((x : ℕ) : ℤ) := by omega
      rw [if_neg (by omega)]
      simp only [List.mem_map, List.mem_range]
      refine ⟨ch, hch, ?_⟩
      rw [hcast,
        convSumRight_eq_spec src kernel radius y' x ch (by omega) (by exact_mod_cast hx)]
      push_cast
      ring_nf

/-- Shared read-out of `blur_horizontal` when `width ≥ 2*radius`: every pixel
of a processed row receives the rounded clamp-to-edge convolution. -/
theorem blur_horizontal_read (src dst : Image) (kernel : List ℚ) (radius : ℕ)
    (start_row end_row : ℕ) (y x ch : ℕ)
    (hW : dst.width = src.width) (hC : dst.channels = 4)
    (h2r : 2 * radius ≤ src.width)
    (hy1 : start_row ≤ y) (hy2 : y < end_row)
    (hx : x < src.width) (hch : ch < 4) :
    (blur_horizontal src dst kernel radius start_row end_row).data
        (((y : ℤ) * src.width + (x : ℤ)) * 4 + (ch : ℤ))
      = roundAway (spec_conv src kernel radius (y : ℤ) (x : ℤ) ch) := by
  show applyWrites dst.data
      (blurWrites src dst.width dst.channels kernel radius start_row end_row) _ = _
  rw [hW, hC]
  apply applyWrites_mem
  · simp only [blurWrites, List.mem_flatMap, List.mem_range]
    refine ⟨y - start_row, by omega, ?_⟩
    have hyj : ((start_row + (y - start_row) : ℕ) : ℤ) = (y : ℤ) := by omega
    rw [hyj]
    exact rowWrites_mem src kernel radius (y : ℤ) x ch hx hch h2r
  · intro p hp hpfst
    simp only [blurWrites, List.mem_flatMap, List.mem_range] at hp
    obtain ⟨j', hj', hp⟩ := hp
    obtain ⟨x', hx'w, ch', hch', hidx, hval⟩ :=
      rowWrites_decode src kernel radius _ p hp
    rw [hidx] at hpfst
    have hwpos : (0 : ℤ) < src.width := by exact_mod_cast Nat.zero_lt_of_lt hx
    obtain ⟨hrow, hchEq⟩ :=
      euclid_pair_unique (W := 4) (by omega) (by omega) (by omega) (by omega) hpfst
    obtain ⟨hyEq, hxEq⟩ :=
      euclid_pair_unique (W := (src.width : ℤ)) (by omega)
        (by exact_mod_cast hx'w) (by omega) (by exact_mod_cast hx) hrow
    have hch2 : ch' = ch := by exact_mod_cast hchEq
    rcases hval with ⟨hcond, hv⟩ | ⟨hc1, hc2, hv⟩ | ⟨hc1, hc2, hv⟩
    · rw [hv, hch2, hyEq, hxEq]
      rw [convSumLeft_eq_spec src kernel radius _ _ ch h2r (by omega) (by omega)]
    · rw [hv, hch2, hyEq, hxEq]
      rw [convSumMid_eq_spec src kernel radius _ _ ch (by omega) (by omega)]
    · rw [hv, hch2, hyEq, hxEq]
      rw [convSumRight_eq_spec src kernel radius _ _ ch (by omega)
        (by exact_mod_cast hx)]

/-- C1 (amended): for every source, destination with matching width and
`channels = 4`, kernel, and `radius` with `2*radius ≤ width`, `convolveRow`
(`blur_horizontal`) writes, for each row `y ∈ [start_row, end_row)`, column
`x ∈ [0, width)` and channel `ch < 4`, the clamp-to-edge convolution
`roundAway (Σ_k source[y, clamp(x+k-radius, 0, width-1), ch] * kernel[k])`.
For `2*radius > width` the claim fails (see the counterexample): the
left-edge loop clamps only negative coordinates, so samples beyond the right
edge are read unclamped. -/
theorem C1_convolve_row_clamped (src dst : Image) (kernel : List ℚ) (radius : ℕ)
    (start_row end_row : ℕ) (y x ch : ℕ)
    (hW : dst.width = src.width) (hC : dst.channels = 4)
    (h2r : 2 * radius ≤ src.width)
    (hy1 : start_row ≤ y) (hy2 : y < end_row)
    (hx : x < src.width) (hch : ch < 4) :
    (blur_horizontal src dst kernel radius start_row end_row).data
        (((y : ℤ) * src.width + (x : ℤ)) * 4 + (ch : ℤ))
      = roundAway (spec_conv src kernel radius (y : ℤ) (x : ℤ) ch) :=
  blur_horizontal_read src dst kernel radius start_row end_row y x ch
    hW hC h2r hy1 hy2 hx hch

set_option maxHeartbeats 2000000 in
/-- Counterexample to C1 as stated (for `radius ≥ width` no clamping of
overshooting coordinates happens): on a 1×2 image whose second row is white,
blurring row 0 with radius 1 and kernel `[1/4, 1/2, 1/4]` stores 64 at pixel
(0,0) — the left-edge loop reads the *next row's* pixel instead of clamping
`x = 1` to the right edge — while the claimed clamp-to-edge formula gives 0. -/
theorem C1_convolve_row_counterexample :
    (blur_horizontal cxSrcC1 cxDstC1 cxKernel 1 0 1).data
        (((0 : ℤ) * cxSrcC1.width + (0 : ℤ)) * 4 + (0 : ℤ))
      ≠ roundAway (spec_conv cxSrcC1 cxKernel 1 (0 : ℤ) (0 : ℤ) 0) := by
  norm_num [blur_horizontal, blurWrites, rowWrites, leftWrites, midWrites, rightWrites,
    applyWrites, cxSrcC1, cxDstC1, cxKernel, convSumLeft, convSumMid, convSumRight,
    spec_conv, clampLow, clampHigh, clampIdx, roundAway, List.range_succ,
    Function.update, Finset.sum_range_succ, List.getD]

/-- Witness for C1 (amended) on a 4×1 image with radius 1. -/
theorem C1_convolve_row_witness :
    (wDstC1.width = wSrcC1.width ∧ wDstC1.channels = 4 ∧ 2 * 1 ≤ wSrcC1.width
      ∧ 0 ≤ 0 ∧ 0 < 1 ∧ 2 < wSrcC1.width ∧ 1 < 4)
    ∧ (blur_horizontal wSrcC1 wDstC1 cxKernel 1 0 1).data
        ((((0 : ℕ) : ℤ) * wSrcC1.width + ((2 : ℕ) : ℤ)) * 4 + ((1 : ℕ) : ℤ))
      = roundAway (spec_conv wSrcC1 cxKernel 1 ((0 : ℕ) : ℤ) ((2 : ℕ) : ℤ) 1) :=
  ⟨⟨rfl, rfl, by decide, le_refl 0, Nat.one_pos, by decide, by decide⟩,
    C1_convolve_row_clamped wSrcC1 wDstC1 cxKernel 1 0 1 0 2 1 rfl rfl
      (by decide) (le_refl 0) Nat.one_pos (by decide) (by decide)⟩

/-! ### Reading back the Kuwahara filter -/

theorem flatMap_assoc_lists {α β γ : Type} (l : List α) (g : α → List β) (f : β → List γ) :
    (l.flatMap g).flatMap f = l.flatMap (fun a => (g a).flatMap f) := by
  induction l with
  | nil => rfl
  | cons a t ih => simp only [List.flatMap_cons, List.flatMap_append, ih]

theorem partitions_flatMap_writes {α : Type} (total k : ℕ) (hk : 1 ≤ k) (f : ℕ → List α) :
    (partitions total k).flatMap
        (fun p => (List.range (p.2 - p.1)).flatMap (fun j => f (p.1 + j)))
      = (List.range total).flatMap f := by
  have h1 : ∀ p : ℕ × ℕ, (List.range (p.2 - p.1)).flatMap (fun j => f (p.1 + j))
      = ((List.range (p.2 - p.1)).map (fun j => p.1 + j)).flatMap f := by
    intro p
    rw [map_flatMap_comp]
  rw [flatMap_congr_mem _ _ _ (fun p _ => h1 p), ← flatMap_assoc_lists,
    partitions_rows total k hk]

theorem apply_kuwahara_writes (src dst : Image) (radius k : ℕ) (hk : 1 ≤ k) :
    apply_kuwahara_filter src dst radius k
      = { dst with data := applyWrites dst.data ((List.range src.height).flatMap
          (fun (y : ℕ) => (List.range src.width).flatMap
            (fun (x : ℕ) => kuwahara_pixel_writes src dst.width radius (x : ℤ) (y : ℤ)))) } := by
  have h2 : ∀ p : ℕ × ℕ, kuwahara_worker_writes src dst.width radius p.1 p.2
      = (List.range (p.2 - p.1)).flatMap (fun j =>
          (fun (y : ℕ) => (List.range src.width).flatMap
            (fun (x : ℕ) => kuwahara_pixel_writes src dst.width radius (x : ℤ) (y : ℤ)))
            (p.1 + j)) := fun p => rfl
  have hlist : (partitions src.height k).flatMap
      (fun p => kuwahara_worker_writes src dst.width radius p.1 p.2)
      = (List.range src.height).flatMap
        (fun (y : ℕ) => (List.range src.width).flatMap
          (fun (x : ℕ) => kuwahara_pixel_writes src dst.width radius (x : ℤ) (y : ℤ))) := by
    rw [flatMap_congr_mem _ _ _ (fun p _ => h2 p)]
    exact partitions_flatMap_writes src.height k hk
      (fun (y : ℕ) => (List.range src.width).flatMap
        (fun (x : ℕ) => kuwahara_pixel_writes src dst.width radius (x : ℤ) (y : ℤ)))
  show ({ dst with data := applyWrites dst.data ((partitions src.height k).flatMap
    (fun p => kuwahara_worker_writes src dst.width radius p.1 p.2)) } : Image) = _
  rw [hlist]

theorem kuwahara_read (src dst : Image) (radius k : ℕ) (x y ch : ℕ)
    (hk : 1 ≤ k) (hW : dst.width = src.width)
    (hx : x < src.width) (hy : y < src.height) (hch : ch < 4) :
    (apply_kuwahara_filter src dst radius k).data
        (((y : ℤ) * src.width + (x : ℤ)) * 4 + (ch : ℤ))
      = kuwahara_chan_value src radius (x : ℤ) (y : ℤ) ch := by
  rw [apply_kuwahara_writes src dst radius k hk]
  show applyWrites dst.data _ _ = _
  rw [hW]
  apply applyWrites_mem
  · simp only [List.mem_flatMap, List.mem_range]
    refine ⟨y, hy, x, hx, ?_⟩
    simp only [kuwahara_pixel_writes, List.mem_map, List.mem_range]
    exact ⟨ch, hch, rfl⟩
  · intro p hp hpfst
    simp only [List.mem_flatMap, List.mem_range, kuwahara_pixel_writes,
      List.mem_map] at hp
    obtain ⟨y', hy', x', hx', ch', hch', hpeq⟩ := hp
    rw [← hpeq] at hpfst ⊢
    simp only [] at hpfst ⊢
    obtain ⟨hrow, hchEq⟩ :=
      euclid_pair_unique (W := 4) (by omega) (by omega) (by omega) (by omega) hpfst
    obtain ⟨hyEq, hxEq⟩ :=
      euclid_pair_unique (W := (src.width : ℤ)) (by omega)
        (by exact_mod_cast hx') (by omega) (by exact_mod_cast hx) hrow
    have hch2 : ch' = ch := by exact_mod_cast hchEq
    rw [hch2, hyEq, hxEq]

/-- C9: the Kuwahara filter copies the alpha channel of every pixel
bit-identically from the source, for every source image, radius and worker
count; and each RGB channel is the clamped per-channel mean of the quadrant
selected by `kuwahara_select`. -/
theorem C9_alpha_passthrough (src dst : Image) (radius k : ℕ) (x y : ℕ)
    (hk : 1 ≤ k) (hW : dst.width = src.width)
    (hx : x < src.width) (hy : y < src.height) :
    (apply_kuwahara_filter src dst radius k).data
        (((y : ℤ) * src.width + (x : ℤ)) * 4 + 3)
      = src.data (((y : ℤ) * src.width + (x : ℤ)) * 4 + 3)
    ∧ ∀ ch : ℕ, ch < 3 →
      (apply_kuwahara_filter src dst radius k).data
          (((y : ℤ) * src.width + (x : ℤ)) * 4 + (ch : ℤ))
        = byte_of_mean (tripleGet (kuwahara_select src (x : ℤ) (y : ℤ) radius).2 ch) := by
  constructor
  · have h := kuwahara_read src dst radius k x y 3 hk hW hx hy (by omega)
    have hc : ((3 : ℕ) : ℤ) = 3 := rfl
    rw [hc] at h
    rw [h, kuwahara_chan_value, if_pos rfl]
  · intro ch hch
    have h := kuwahara_read src dst radius k x y ch hk hW hx hy (by omega)
    rw [h, kuwahara_chan_value, if_neg (by omega)]

/-- Witness for C9 on a 2×2 image, radius 1, 2 workers, pixel (1,0). -/
theorem C9_alpha_passthrough_witness :
    (1 ≤ 2 ∧ wDst2.width = wSrc2.width ∧ 1 < wSrc2.width ∧ 0 < wSrc2.height)
    ∧ ((apply_kuwahara_filter wSrc2 wDst2 1 2).data
        ((((0 : ℕ) : ℤ) * wSrc2.width + ((1 : ℕ) : ℤ)) * 4 + 3)
      = wSrc2.data ((((0 : ℕ) : ℤ) * wSrc2.width + ((1 : ℕ) : ℤ)) * 4 + 3)
    ∧ ∀ ch : ℕ, ch < 3 →
      (apply_kuwahara_filter wSrc2 wDst2 1 2).data
          ((((0 : ℕ) : ℤ) * wSrc2.width + ((1 : ℕ) : ℤ)) * 4 + (ch : ℤ))
        = byte_of_mean (tripleGet (kuwahara_select wSrc2 ((1 : ℕ) : ℤ) ((0 : ℕ) : ℤ) 1).2 ch)) :=
  ⟨⟨by decide, rfl, by decide, by decide⟩,
    C9_alpha_passthrough wSrc2 wDst2 1 2 1 0 (by decide) rfl (by decide) (by decide)⟩

/-! ### Quadrant variances and the tie-break -/

theorem pixelChan_byte (src : Image) (ch : ℕ)
    (hbytes : ∀ i : ℕ, i < 4 * src.width * src.height →
      0 ≤ src.data i ∧ src.data i < 256)
    (hch : ch < 4) (j i : ℕ) (hj : j < src.height) (hi : i < src.width) :
    0 ≤ pixelChan src ch j i ∧ pixelChan src ch j i ≤ 255 := by
  have hidx : (((j * src.width + i) * 4 + ch : ℕ) : ℤ)
      = ((j : ℤ) * src.width + i) * 4 + ch := by push_cast; ring
  have h1 : j * src.width + i < src.height * src.width := by
    calc j * src.width + i < j * src.width + src.width := by omega
    _ = (j + 1) * src.width := by ring
    _ ≤ src.height * src.width := Nat.mul_le_mul_right _ (by omega)
  have hlt : (j * src.width + i) * 4 + ch < 4 * src.width * src.height := by
    calc (j * src.width + i) * 4 + ch < (j * src.width + i) * 4 + 4 := by omega
    _ = (j * src.width + i + 1) * 4 := by ring
    _ ≤ (src.height * src.width) * 4 := Nat.mul_le_mul_right _ (Nat.succ_le_of_lt h1)
    _ = 4 * src.width * src.height := by ring
  have hb := hbytes _ hlt
  rw [pixelChan, ← hidx]
  constructor
  · exact_mod_cast hb.1
  · have h2 : src.data (((j * src.width + i) * 4 + ch : ℕ) : ℤ) ≤ 255 := by omega
    exact_mod_cast h2

theorem direct_var_bound (f : ℕ → ℕ → ℚ) (a b c d : ℕ) (hab : a ≤ b) (hcd : c ≤ d)
    (hf : ∀ j i, j ∈ Finset.Icc c d → i ∈ Finset.Icc a b → 0 ≤ f j i ∧ f j i ≤ 255) :
    0 ≤ direct_var f a b c d ∧ direct_var f a b c d ≤ 65025 := by
  have harea : (0 : ℚ) < (((b + 1 - a) * (d + 1 - c) : ℕ) : ℚ) := by
    have h1 : 0 < (b + 1 - a) * (d + 1 - c) := Nat.mul_pos (by omega) (by omega)
    exact_mod_cast h1
  have hssq : rect_sum (fun j i => f j i * f j i) a b c d
      ≤ (((b + 1 - a) * (d + 1 - c) : ℕ) : ℚ) * 65025 := by
    rw [rect_sum]
    calc ∑ j ∈ Finset.Icc c d, ∑ i ∈ Finset.Icc a b, f j i * f j i
        ≤ ∑ j ∈ Finset.Icc c d, ∑ i ∈ Finset.Icc a b, (65025 : ℚ) := by
          apply Finset.sum_le_sum
          intro j hj
          apply Finset.sum_le_sum
          intro i hi
          have hb := hf j i hj hi
          nlinarith [hb.1, hb.2]
    _ = (((b + 1 - a) * (d + 1 - c) : ℕ) : ℚ) * 65025 := by
          simp only [Finset.sum_const, Nat.card_Icc, nsmul_eq_mul]
          push_cast
          ring
  rw [direct_var]
  constructor
  · split_ifs with hv
    · exact le_refl 0
    · exact le_of_not_lt hv
  · split_ifs with hv
    · norm_num
    · have hm2 : 0 ≤ direct_mean f a b c d * direct_mean f a b c d := mul_self_nonneg _
      have hdiv : rect_sum (fun j i => f j i * f j i) a b c d /
          (((b + 1 - a) * (d + 1 - c) : ℕ) : ℚ) ≤ 65025 := by
        rw [div_le_iff harea]
        linarith
      linarith

theorem quad_total_zero_bound (src : Image) (radius : ℕ) (x y : ℕ)
    (hbytes : ∀ i : ℕ, i < 4 * src.width * src.height →
      0 ≤ src.data i ∧ src.data i < 256)
    (hx : x < src.width) (hy : y < src.height) :
    quad_total src radius (x : ℤ) (y : ℤ) 0 < FLT_MAX + FLT_MAX + FLT_MAX := by
  have hw : 0 < src.width := Nat.zero_lt_of_lt hx
  have hh : 0 < src.height := Nat.zero_lt_of_lt hy
  have hstats : ∀ ch : ℕ, ch < 4 →
      0 ≤ (get_region_stats (integral_sum src ch) (integral_sum_sq src ch)
          src.width src.height ((x : ℤ) - radius) ((y : ℤ) - radius) (x : ℤ) (y : ℤ)).2
      ∧ (get_region_stats (integral_sum src ch) (integral_sum_sq src ch)
          src.width src.height ((x : ℤ) - radius) ((y : ℤ) - radius) (x : ℤ) (y : ℤ)).2
        ≤ 65025 := by
    intro ch hch
    rw [region_stats_direct src ch ((x : ℤ) - radius) ((y : ℤ) - radius) (x : ℤ) (y : ℤ)
      hw hh (by omega) (by omega) (by omega) (by omega) (by omega) (by omega)]
    exact direct_var_bound _ _ _ _ _ (by omega) (by omega)
      (fun j i hj hi => pixelChan_byte src ch hbytes hch j i
        (by have := Finset.mem_Icc.mp hj; omega)
        (by have := Finset.mem_Icc.mp hi; omega))
  have e0 : quad_total src radius (x : ℤ) (y : ℤ) 0
      = (get_region_stats (integral_sum src 0) (integral_sum_sq src 0)
          src.width src.height ((x : ℤ) - radius) ((y : ℤ) - radius) (x : ℤ) (y : ℤ)).2
      + (get_region_stats (integral_sum src 1) (integral_sum_sq src 1)
          src.width src.height ((x : ℤ) - radius) ((y : ℤ) - radius) (x : ℤ) (y : ℤ)).2
      + (get_region_stats (integral_sum src 2) (integral_sum_sq src 2)
          src.width src.height ((x : ℤ) - radius) ((y : ℤ) - radius) (x : ℤ) (y : ℤ)).2 := rfl
  have h0 := hstats 0 (by omega)
  have h1 := hstats 1 (by omega)
  have h2 := hstats 2 (by omega)
  have hflt : (3 * 65025 : ℚ) < FLT_MAX + FLT_MAX + FLT_MAX := by
    norm_num [FLT_MAX]
  rw [e0]
  linarith [h0.1, h0.2, h1.1, h1.2, h2.1, h2.2]

theorem kuwahara_select_first_min (src : Image) (x y : ℤ) (radius : ℕ)
    (h0 : quad_total src radius x y 0 < FLT_MAX + FLT_MAX + FLT_MAX) :
    kuwahara_select src x y radius
      = quad_eval src radius x y
          (first_min_index (quad_total src radius x y 0) (quad_total src radius x y 1)
            (quad_total src radius x y 2) (quad_total src radius x y 3)) := by
  simp only [quad_total] at h0 ⊢
  rw [kuwahara_select]
  have hr4 : List.range 4 = [0, 1, 2, 3] := rfl
  rw [hr4]
  simp only [List.foldl_cons, List.foldl_nil]
  rw [if_pos h0]
  by_cases h1 : (quad_eval src radius x y 1).1.1 + (quad_eval src radius x y 1).1.2.1
      + (quad_eval src radius x y 1).1.2.2
      < (quad_eval src radius x y 0).1.1 + (quad_eval src radius x y 0).1.2.1
      + (quad_eval src radius x y 0).1.2.2
  · rw [if_pos h1]
    by_cases h2 : (quad_eval src radius x y 2).1.1 + (quad_eval src radius x y 2).1.2.1
        + (quad_eval src radius x y 2).1.2.2
        < (quad_eval src radius x y 1).1.1 + (quad_eval src radius x y 1).1.2.1
        + (quad_eval src radius x y 1).1.2.2
    · rw [if_pos h2]
      by_cases h3 : (quad_eval src radius x y 3).1.1 + (quad_eval src radius x y 3).1.2.1
          + (quad_eval src radius x y 3).1.2.2
          < (quad_eval src radius x y 2).1.1 + (quad_eval src radius x y 2).1.2.1
          + (quad_eval src radius x y 2).1.2.2
      · rw [if_pos h3, first_min_index,
          if_neg (by rintro ⟨hA, -, -⟩; linarith),
          if_neg (by rintro ⟨hA, -⟩; linarith),
          if_neg (by intro hA; linarith)]
      · rw [if_neg h3, first_min_index,
          if_neg (by rintro ⟨hA, -, -⟩; linarith),
          if_neg (by rintro ⟨hA, -⟩; linarith),
          if_pos (by linarith)]
    · rw [if_neg h2]
      by_cases h3 : (quad_eval src radius x y 3).1.1 + (quad_eval src radius x y 3).1.2.1
          + (quad_eval src radius x y 3).1.2.2
          < (quad_eval src radius x y 1).1.1 + (quad_eval src radius x y 1).1.2.1
          + (quad_eval src radius x y 1).1.2.2
      · rw [if_pos h3, first_min_index,
          if_neg (by rintro ⟨hA, -, -⟩; linarith),
          if_neg (by rintro ⟨-, hA⟩; linarith),
          if_neg (by intro hA; linarith)]
      · rw [if_neg h3, first_min_index,
          if_neg (by rintro ⟨hA, -, -⟩; linarith),
          if_pos ⟨by linarith, by linarith⟩]
  · rw [if_neg h1]
    by_cases h2 : (quad_eval src radius x y 2).1.1 + (quad_eval src radius x y 2).1.2.1
        + (quad_eval src radius x y 2).1.2.2
        < (quad_eval src radius x y 0).1.1 + (quad_eval src radius x y 0).1.2.1
        + (quad_eval src radius x y 0).1.2.2
    · rw [if_pos h2]
      by_cases h3 : (quad_eval src radius x y 3).1.1 + (quad_eval src radius x y 3).1.2.1
          + (quad_eval src radius x y 3).1.2.2
          < (quad_eval src radius x y 2).1.1 + (quad_eval src radius x y 2).1.2.1
          + (quad_eval src radius x y 2).1.2.2
      · rw [if_pos h3, first_min_index,
          if_neg (by rintro ⟨-, hA, -⟩; linarith),
          if_neg (by rintro ⟨-, hA⟩; linarith),
          if_neg (by intro hA; linarith)]
      · rw [if_neg h3, first_min_index,
          if_neg (by rintro ⟨-, hA, -⟩; linarith),
          if_neg (by rintro ⟨hA, -⟩; linarith),
          if_pos (by linarith)]
    · rw [if_neg h2]
      by_cases h3 : (quad_eval src radius x y 3).1.1 + (quad_eval src radius x y 3).1.2.1
          + (quad_eval src radius x y 3).1.2.2
          < (quad_eval src radius x y 0).1.1 + (quad_eval src radius x y 0).1.2.1
          + (quad_eval src radius x y 0).1.2.2
      · rw [if_pos h3, first_min_index,
          if_neg (by rintro ⟨-, -, hA⟩; linarith),
          if_neg (by rintro ⟨-, hA⟩; linarith),
          if_neg (by intro hA; linarith)]
      · rw [if_neg h3, first_min_index,
          if_pos ⟨by linarith, by linarith, by linarith⟩]

/-- C4: `kuwahara_filter_pixel` evaluates the quadrants in the order
NW `[x-r,y-r]→[x,y]`, NE `[x,y-r]→[x+r,y]`, SW `[x-r,y]→[x,y+r]`,
SE `[x,y]→[x+r,y+r]`; a quadrant replaces the current best only on a strictly
lower aggregate variance, so the selected quadrant is the first one attaining
the minimum (NW preferred on ties); the written RGB bytes are the winning
quadrant's per-channel means clamped to `[0,255]`. -/
theorem C4_quadrant_tie_break (src : Image) (radius : ℕ) (x y : ℕ)
    (hbytes : ∀ i : ℕ, i < 4 * src.width * src.height →
      0 ≤ src.data i ∧ src.data i < 256)
    (hx : x < src.width) (hy : y < src.height) :
    quadrants (x : ℤ) (y : ℤ) radius
      = [((x : ℤ) - radius, (y : ℤ) - radius, (x : ℤ), (y : ℤ)),
         ((x : ℤ), (y : ℤ) - radius, (x : ℤ) + radius, (y : ℤ)),
         ((x : ℤ) - radius, (y : ℤ), (x : ℤ), (y : ℤ) + radius),
         ((x : ℤ), (y : ℤ), (x : ℤ) + radius, (y : ℤ) + radius)]
    ∧ kuwahara_select src (x : ℤ) (y : ℤ) radius
      = quad_eval src radius (x : ℤ) (y : ℤ)
          (first_min_index (quad_total src radius (x : ℤ) (y : ℤ) 0)
            (quad_total src radius (x : ℤ) (y : ℤ) 1)
            (quad_total src radius (x : ℤ) (y : ℤ) 2)
            (quad_total src radius (x : ℤ) (y : ℤ) 3))
    ∧ (∀ ch : ℕ, ch < 3 → kuwahara_chan_value src radius (x : ℤ) (y : ℤ) ch
        = byte_of_mean (tripleGet ((quad_eval src radius (x : ℤ) (y : ℤ)
            (first_min_index (quad_total src radius (x : ℤ) (y : ℤ) 0)
              (quad_total src radius (x : ℤ) (y : ℤ) 1)
              (quad_total src radius (x : ℤ) (y : ℤ) 2)
              (quad_total src radius (x : ℤ) (y : ℤ) 3))).2) ch)) := by
  have hsel := kuwahara_select_first_min src (x : ℤ) (y : ℤ) radius
    (quad_total_zero_bound src radius x y hbytes hx hy)
  refine ⟨rfl, hsel, ?_⟩
  intro ch hch
  rw [kuwahara_chan_value, if_neg (by omega), hsel]

/-- Witness for C4 on a 2×2 byte image, radius 1, pixel (0,0). -/
theorem C4_quadrant_tie_break_witness :
    ((∀ i : ℕ, i < 4 * wSrc2.width * wSrc2.height →
      0 ≤ wSrc2.data i ∧ wSrc2.data i < 256) ∧ 0 < wSrc2.width ∧ 0 < wSrc2.height)
    ∧ kuwahara_select wSrc2 ((0 : ℕ) : ℤ) ((0 : ℕ) : ℤ) 1
      = quad_eval wSrc2 1 ((0 : ℕ) : ℤ) ((0 : ℕ) : ℤ)
          (first_min_index (quad_total wSrc2 1 ((0 : ℕ) : ℤ) ((0 : ℕ) : ℤ) 0)
            (quad_total wSrc2 1 ((0 : ℕ) : ℤ) ((0 : ℕ) : ℤ) 1)
            (quad_total wSrc2 1 ((0 : ℕ) : ℤ) ((0 : ℕ) : ℤ) 2)
            (quad_total wSrc2 1 ((0 : ℕ) : ℤ) ((0 : ℕ) : ℤ) 3)) :=
  ⟨⟨by decide, by decide, by decide⟩,
    (C4_quadrant_tie_break wSrc2 1 0 0 (by decide) (by decide) (by decide)).2.1⟩

/-! ### Uniform images -/

theorem direct_stats_const (f : ℕ → ℕ → ℚ) (cst : ℚ) (a b c d : ℕ)
    (hab : a ≤ b) (hcd : c ≤ d)
    (hf : ∀ j i, j ∈ Finset.Icc c d → i ∈ Finset.Icc a b → f j i = cst) :
    direct_mean f a b c d = cst ∧ direct_var f a b c d = 0 := by
  have hcard0 : (((b + 1 - a) * (d + 1 - c) : ℕ) : ℚ) ≠ 0 := by
    have h1 : 0 < (b + 1 - a) * (d + 1 - c) := Nat.mul_pos (by omega) (by omega)
    exact_mod_cast Nat.pos_iff_ne_zero.mp h1
  have hsum : rect_sum f a b c d = (((b + 1 - a) * (d + 1 - c) : ℕ) : ℚ) * cst := by
    rw [rect_sum,
      Finset.sum_congr rfl (fun j hj => Finset.sum_congr rfl (fun i hi => hf j i hj hi))]
    simp only [Finset.sum_const, Nat.card_Icc, nsmul_eq_mul]
    push_cast
    ring
  have hsumsq : rect_sum (fun j i => f j i * f j i) a b c d
      = (((b + 1 - a) * (d + 1 - c) : ℕ) : ℚ) * (cst * cst) := by
    rw [rect_sum, Finset.sum_congr rfl (fun j hj => Finset.sum_congr rfl
      (fun i hi => by rw [hf j i hj hi]))]
    simp only [Finset.sum_const, Nat.card_Icc, nsmul_eq_mul]
    push_cast
    ring
  have hmean : direct_mean f a b c d = cst := by
    rw [direct_mean, hsum, mul_comm, mul_div_assoc, div_self hcard0, mul_one]
  refine ⟨hmean, ?_⟩
  rw [direct_var, hsumsq, hmean]
  have hv0 : (((b + 1 - a) * (d + 1 - c) : ℕ) : ℚ) * (cst * cst) /
      (((b + 1 - a) * (d + 1 - c) : ℕ) : ℚ) - cst * cst = 0 := by
    rw [mul_comm, mul_div_assoc, div_self hcard0, mul_one, sub_self]
  rw [hv0, if_neg (lt_irrefl 0)]

theorem quad_eval_coords (src : Image) (radius : ℕ) (x y : ℤ) (q : ℕ)
    (a b c d : ℤ) (hc : (quadrants x y radius).getD q (0, 0, 0, 0) = (a, b, c, d)) :
    quad_eval src radius x y q
      = (((get_region_stats (integral_sum src 0) (integral_sum_sq src 0)
            src.width src.height a b c d).2,
          (get_region_stats (integral_sum src 1) (integral_sum_sq src 1)
            src.width src.height a b c d).2,
          (get_region_stats (integral_sum src 2) (integral_sum_sq src 2)
            src.width src.height a b c d).2),
         ((get_region_stats (integral_sum src 0) (integral_sum_sq src 0)
            src.width src.height a b c d).1,
          (get_region_stats (integral_sum src 1) (integral_sum_sq src 1)
            src.width src.height a b c d).1,
          (get_region_stats (integral_sum src 2) (integral_sum_sq src 2)
            src.width src.height a b c d).1)) := by
  rw [quad_eval, hc]

theorem quad_eval_const (src : Image) (cfn : ℕ → ℤ) (radius : ℕ) (x y : ℕ)
    (hconst : ∀ x' : ℕ, x' < src.width → ∀ y' : ℕ, y' < src.height → ∀ ch : ℕ, ch < 4 →
      src.data (((y' : ℤ) * src.width + (x' : ℤ)) * 4 + (ch : ℤ)) = cfn ch)
    (hx : x < src.width) (hy : y < src.height) (q : ℕ) (hq : q < 4) :
    quad_eval src radius (x : ℤ) (y : ℤ) q
      = ((0, 0, 0), (((cfn 0 : ℤ) : ℚ), ((cfn 1 : ℤ) : ℚ), ((cfn 2 : ℤ) : ℚ))) := by
  have hw : 0 < src.width := Nat.zero_lt_of_lt hx
  have hh : 0 < src.height := Nat.zero_lt_of_lt hy
  have key : ∀ (x1 y1 x2 y2 : ℤ), x1 ≤ x2 → y1 ≤ y2 → x1 < src.width →
      y1 < src.height → 0 ≤ x2 → 0 ≤ y2 → ∀ ch : ℕ, ch < 4 →
      get_region_stats (integral_sum src ch) (integral_sum_sq src ch)
        src.width src.height x1 y1 x2 y2 = (((cfn ch : ℤ) : ℚ), 0) := by
    intro x1 y1 x2 y2 h12x h12y hx1 hy1 hx2 hy2 ch hch
    rw [region_stats_direct src ch x1 y1 x2 y2 hw hh h12x h12y hx1 hy1 hx2 hy2]
    have hf : ∀ j i, j ∈ Finset.Icc y1.toNat (min (src.height - 1) y2.toNat) →
        i ∈ Finset.Icc x1.toNat (min (src.width - 1) x2.toNat) →
        pixelChan src ch j i = ((cfn ch : ℤ) : ℚ) := by
      intro j i hj hi
      have hjm := Finset.mem_Icc.mp hj
      have him := Finset.mem_Icc.mp hi
      rw [pixelChan, hconst i (by omega) j (by omega) ch hch]
    have hc := direct_stats_const (pixelChan src ch) ((cfn ch : ℤ) : ℚ) _ _ _ _
      (by omega) (by omega) hf
    rw [hc.1, hc.2]
  have hq0 := key ((x : ℤ) - radius) ((y : ℤ) - radius) (x : ℤ) (y : ℤ)
    (by omega) (by omega) (by omega) (by omega) (by omega) (by omega)
  have hq1 := key (x : ℤ) ((y : ℤ) - radius) ((x : ℤ) + radius) (y : ℤ)
    (by omega) (by omega) (by omega) (by omega) (by omega) (by omega)
  have hq2 := key ((x : ℤ) - radius) (y : ℤ) (x : ℤ) ((y : ℤ) + radius)
    (by omega) (by omega) (by omega) (by omega) (by omega) (by omega)
  have hq3 := key (x : ℤ) (y : ℤ) ((x : ℤ) + radius) ((y : ℤ) + radius)
    (by omega) (by omega) (by omega) (by omega) (by omega) (by omega)
  rcases (by omega : q = 0 ∨ q = 1 ∨ q = 2 ∨ q = 3) with h | h | h | h <;> subst h
  · rw [quad_eval_coords src radius (x : ℤ) (y : ℤ) 0 ((x : ℤ) - radius) ((y : ℤ) - radius) ((x : ℤ)) ((y : ℤ)) rfl,
      hq0 0 (by omega), hq0 1 (by omega), hq0 2 (by omega)]
  · rw [quad_eval_coords src radius (x : ℤ) (y : ℤ) 1 ((x : ℤ)) ((y : ℤ) - radius) ((x : ℤ) + radius) ((y : ℤ)) rfl,
      hq1 0 (by omega), hq1 1 (by omega), hq1 2 (by omega)]
  · rw [quad_eval_coords src radius (x : ℤ) (y : ℤ) 2 ((x : ℤ) - radius) ((y : ℤ)) ((x : ℤ)) ((y : ℤ) + radius) rfl,
      hq2 0 (by omega), hq2 1 (by omega), hq2 2 (by omega)]
  · rw [quad_eval_coords src radius (x : ℤ) (y : ℤ) 3 ((x : ℤ)) ((y : ℤ)) ((x : ℤ) + radius) ((y : ℤ) + radius) rfl,
      hq3 0 (by omega), hq3 1 (by omega), hq3 2 (by omega)]

/-- C8: on a constant-colour image (every pixel equal to `(cfn 0, cfn 1,
cfn 2, cfn 3)` with byte components), `apply_kuwahara_filter` maps every
pixel byte to itself exactly, for every radius and every worker count ≥ 1:
all quadrant variances are 0, the tie-break keeps the NW quadrant whose mean
is the constant, and alpha is copied unchanged. -/
theorem C8_uniform_invariance (src dst : Image) (cfn : ℕ → ℤ) (radius k : ℕ)
    (x y ch : ℕ)
    (hconst : ∀ x' : ℕ, x' < src.width → ∀ y' : ℕ, y' < src.height → ∀ ch' : ℕ, ch' < 4 →
      src.data (((y' : ℤ) * src.width + (x' : ℤ)) * 4 + (ch' : ℤ)) = cfn ch')
    (hcrange : ∀ ch' : ℕ, ch' < 4 → 0 ≤ cfn ch' ∧ cfn ch' ≤ 255)
    (hk : 1 ≤ k) (hW : dst.width = src.width)
    (hx : x < src.width) (hy : y < src.height) (hch : ch < 4) :
    (apply_kuwahara_filter src dst radius k).data
        (((y : ℤ) * src.width + (x : ℤ)) * 4 + (ch : ℤ))
      = src.data (((y : ℤ) * src.width + (x : ℤ)) * 4 + (ch : ℤ)) := by
  rw [kuwahara_read src dst radius k x y ch hk hW hx hy hch]
  by_cases hch3 : ch = 3
  · subst hch3
    rw [kuwahara_chan_value, if_pos rfl]
    norm_num
  · rw [kuwahara_chan_value, if_neg hch3,
      hconst x hx y hy ch hch]
    have hq := quad_eval_const src cfn radius x y hconst hx hy
    have ht : ∀ q, q < 4 → quad_total src radius (x : ℤ) (y : ℤ) q = 0 := by
      intro q hqlt
      rw [quad_total, hq q hqlt]
      norm_num
    have hsel := kuwahara_select_first_min src (x : ℤ) (y : ℤ) radius
      (by rw [ht 0 (by omega)]; norm_num [FLT_MAX])
    rw [hsel, ht 0 (by omega), ht 1 (by omega), ht 2 (by omega), ht 3 (by omega)]
    have hfmi : first_min_index 0 0 0 0 = 0 := by
      rw [first_min_index, if_pos ⟨le_refl 0, le_refl 0, le_refl 0⟩]
    rw [hfmi, hq 0 (by omega)]
    have hbyte : ∀ ch' : ℕ, ch' < 4 → byte_of_mean ((cfn ch' : ℤ) : ℚ) = cfn ch' := by
      intro ch' hch'
      have hr := hcrange ch' hch'
      rw [byte_of_mean, max_eq_right (by exact_mod_cast hr.1),
        min_eq_right (by exact_mod_cast hr.2), Int.floor_intCast]
    rcases (by omega : ch = 0 ∨ ch = 1 ∨ ch = 2) with h | h | h <;> subst h
    · exact hbyte 0 (by omega)
    · exact hbyte 1 (by omega)
    · exact hbyte 2 (by omega)

/-- Witness for C8 on a 2×2 image of constant colour (100,150,200,255),
radius 1, 2 workers, pixel (1,0), green channel. -/
theorem C8_uniform_invariance_witness :
    ((∀ x' : ℕ, x' < wConst.width → ∀ y' : ℕ, y' < wConst.height → ∀ ch' : ℕ, ch' < 4 →
        wConst.data (((y' : ℤ) * wConst.width + (x' : ℤ)) * 4 + (ch' : ℤ)) = wColor ch')
      ∧ (∀ ch' : ℕ, ch' < 4 → 0 ≤ wColor ch' ∧ wColor ch' ≤ 255)
      ∧ 1 ≤ 2 ∧ wDst2.width = wConst.width ∧ 1 < wConst.width ∧ 0 < wConst.height
      ∧ 1 < 4)
    ∧ (apply_kuwahara_filter wConst wDst2 1 2).data
        ((((0 : ℕ) : ℤ) * wConst.width + ((1 : ℕ) : ℤ)) * 4 + ((1 : ℕ) : ℤ))
      = wConst.data ((((0 : ℕ) : ℤ) * wConst.width + ((1 : ℕ) : ℤ)) * 4 + ((1 : ℕ) : ℤ)) :=
  ⟨⟨by decide, by decide, by decide, rfl, by decide, by decide, by decide⟩,
    C8_uniform_invariance wConst wDst2 wColor 1 2 1 0 1 (by decide) (by decide)
      (by decide) rfl (by decide) (by decide) (by decide)⟩

/-! ### Transpose and phase composition -/

theorem transpose_image_read (src dst : Image) (y x ch : ℕ)
    (hy : y < src.height) (hx : x < src.width) (hch : ch < 4) :
    (transpose_image src dst).data (((x : ℤ) * src.height + (y : ℤ)) * 4 + (ch : ℤ))
      = src.data (((y : ℤ) * src.width + (x : ℤ)) * 4 + (ch : ℤ)) := by
  show applyWrites dst.data (transposeWrites src) _ = _
  apply applyWrites_mem
  · simp only [transposeWrites, List.mem_flatMap, List.mem_range, List.mem_map]
    exact ⟨y, hy, x, hx, ch, hch, rfl⟩
  · intro p hp hpfst
    simp only [transposeWrites, List.mem_flatMap, List.mem_range, List.mem_map] at hp
    obtain ⟨y', hy', x', hx', ch', hch', hpeq⟩ := hp
    rw [← hpeq] at hpfst ⊢
    simp only [] at hpfst ⊢
    obtain ⟨hrow, hchEq⟩ :=
      euclid_pair_unique (W := 4) (by omega) (by omega) (by omega) (by omega) hpfst
    obtain ⟨hxEq, hyEq⟩ :=
      euclid_pair_unique (W := (src.height : ℤ)) (by omega)
        (by exact_mod_cast hy') (by omega) (by exact_mod_cast hy) hrow
    have hch2 : ch' = ch := by exact_mod_cast hchEq
    rw [hch2, hyEq, hxEq]

theorem clampIdx_bounds (w : ℕ) (hw : 0 < w) (i : ℤ) :
    0 ≤ clampIdx w i ∧ clampIdx w i < w := by
  rw [clampIdx]
  constructor
  · exact le_max_left 0 _
  · have h1 : min ((w : ℤ) - 1) i ≤ (w : ℤ) - 1 := min_le_left _ _
    have h2 : (0 : ℤ) < w := by exact_mod_cast hw
    exact max_lt (by omega) (by omega)

theorem blur_phase_fold (src : Image) (kernel : List ℚ) (radius : ℕ)
    (parts : List (ℕ × ℕ)) (img : Image) :
    parts.foldl (fun im p => blur_horizontal src im kernel radius p.1 p.2) img
      = { img with data := applyWrites img.data (parts.flatMap
          (fun p => blurWrites src img.width img.channels kernel radius p.1 p.2)) } := by
  induction parts generalizing img with
  | nil => rfl
  | cons p ps ih =>
    rw [List.foldl_cons, List.flatMap_cons, ih, applyWrites_append]
    rfl

theorem gaussian_phase_single (src : Image) (kernel : List ℚ) (radius : ℕ)
    (total k : ℕ) (hk : 1 ≤ k) (img : Image) :
    (partitions total k).foldl (fun im p => blur_horizontal src im kernel radius p.1 p.2) img
      = blur_horizontal src img kernel radius 0 total := by
  rw [blur_phase_fold]
  have hL : (partitions total k).flatMap (fun p =>
      blurWrites src img.width img.channels kernel radius p.1 p.2)
      = blurWrites src img.width img.channels kernel radius 0 total := by
    have h2 : ∀ p : ℕ × ℕ, blurWrites src img.width img.channels kernel radius p.1 p.2
        = (List.range (p.2 - p.1)).flatMap (fun j =>
            (fun (r : ℕ) => rowWrites src img.width img.channels kernel radius ((r : ℕ) : ℤ))
              (p.1 + j)) := fun p => rfl
    rw [flatMap_congr_mem _ _ _ (fun p _ => h2 p),
      partitions_flatMap_writes total k hk
        (fun (r : ℕ) => rowWrites src img.width img.channels kernel radius ((r : ℕ) : ℤ))]
    rw [blurWrites, Nat.sub_zero]
    exact (flatMap_congr_mem _ _ _ (fun j _ => by rw [Nat.zero_add])).symm
  rw [hL]
  rfl

/-- C2: for a fixed source, destination, radius and temporary-buffer contents,
`gaussian_blur` with any worker count `k ≥ 1` produces exactly the image it
produces with 1 worker, and likewise `apply_kuwahara_filter` — the partitions
repartition the same writes without changing them. -/
theorem C2_worker_count_determinism (expf : ℚ → ℚ) (src dst : Image)
    (radius k : ℕ) (t1 t2 t3 : ℤ → ℤ) (hk : 1 ≤ k) :
    gaussian_blur expf src dst radius k t1 t2 t3
      = gaussian_blur expf src dst radius 1 t1 t2 t3
    ∧ apply_kuwahara_filter src dst radius k = apply_kuwahara_filter src dst radius 1 := by
  constructor
  · rw [gaussian_blur, gaussian_blur, gaussian_blur_with_kernel, gaussian_blur_with_kernel]
    rw [gaussian_phase_single src _ radius src.height k hk,
      gaussian_phase_single src _ radius src.height 1 (le_refl 1),
      gaussian_phase_single _ _ radius src.width k hk,
      gaussian_phase_single _ _ radius src.width 1 (le_refl 1)]
  · rw [apply_kuwahara_writes src dst radius k hk,
      apply_kuwahara_writes src dst radius 1 (le_refl 1)]

/-- Witness for C2 at `k = 3` on a 2×2 image with radius 1. -/
theorem C2_worker_count_determinism_witness :
    1 ≤ 3
    ∧ (gaussian_blur (fun _ : ℚ => 1) wSrc2 wDst2 1 3 (fun _ => 0) (fun _ => 0) (fun _ => 0)
        = gaussian_blur (fun _ : ℚ => 1) wSrc2 wDst2 1 1 (fun _ => 0) (fun _ => 0) (fun _ => 0)
      ∧ apply_kuwahara_filter wSrc2 wDst2 1 3 = apply_kuwahara_filter wSrc2 wDst2 1 1) :=
  ⟨by decide,
    C2_worker_count_determinism (fun _ : ℚ => 1) wSrc2 wDst2 1 3
      (fun _ => 0) (fun _ => 0) (fun _ => 0) (by decide)⟩

/-! ### The full blur pipeline -/

theorem gaussian_pipeline_read (src dst : Image) (kernel : List ℚ) (radius k : ℕ)
    (t1 t2 t3 : ℤ → ℤ) (y x ch : ℕ)
    (hk : 1 ≤ k) (h2rw : 2 * radius ≤ src.width) (h2rh : 2 * radius ≤ src.height)
    (hy : y < src.height) (hx : x < src.width) (hch : ch < 4) :
    (gaussian_blur_with_kernel src dst kernel radius k t1 t2 t3).data
        (((y : ℤ) * src.width + (x : ℤ)) * 4 + (ch : ℤ))
      = roundAway (∑ ky ∈ Finset.range (2 * radius + 1),
          ((roundAway (spec_conv src kernel radius
              (clampIdx src.height ((y : ℤ) + ky - radius)) (x : ℤ) ch) : ℤ) : ℚ)
            * kernel.getD ky 0) := by
  have hh0 : 0 < src.height := Nat.zero_lt_of_lt hy
  have hT1read : ∀ c : ℤ, 0 ≤ c → c < src.height →
      (blur_horizontal src ⟨t1, src.width, src.height, 4⟩ kernel radius 0 src.height).data
          ((c * src.width + (x : ℤ)) * 4 + (ch : ℤ))
        = roundAway (spec_conv src kernel radius c (x : ℤ) ch) := by
    intro c hc0 hcx
    have h := blur_horizontal_read src ⟨t1, src.width, src.height, 4⟩ kernel radius
      0 src.height c.toNat x ch rfl rfl h2rw (Nat.zero_le _) (by omega) hx hch
    have hcast : ((c.toNat : ℕ) : ℤ) = c := by omega
    rw [hcast] at h
    exact h
  have hT2read : ∀ c : ℤ, 0 ≤ c → c < src.height →
      (transpose_image
          (blur_horizontal src ⟨t1, src.width, src.height, 4⟩ kernel radius 0 src.height)
          ⟨t2, src.height, src.width, 4⟩).data
          (((x : ℤ) * src.height + c) * 4 + (ch : ℤ))
        = roundAway (spec_conv src kernel radius c (x : ℤ) ch) := by
    intro c hc0 hcx
    have h := transpose_image_read
      (blur_horizontal src ⟨t1, src.width, src.height, 4⟩ kernel radius 0 src.height)
      ⟨t2, src.height, src.width, 4⟩ c.toNat x ch
      (by show c.toNat < src.height; omega) (by show x < src.width; exact hx) hch
    have e1 : (blur_horizontal src ⟨t1, src.width, src.height, 4⟩ kernel radius
        0 src.height).height = src.height := rfl
    have e2 : (blur_horizontal src ⟨t1, src.width, src.height, 4⟩ kernel radius
        0 src.height).width = src.width := rfl
    rw [e1, e2] at h
    have hcast : ((c.toNat : ℕ) : ℤ) = c := by omega
    rw [hcast] at h
    rw [h]
    exact hT1read c hc0 hcx
  have hT3read :
      (blur_horizontal
          (transpose_image
            (blur_horizontal src ⟨t1, src.width, src.height, 4⟩ kernel radius 0 src.height)
            ⟨t2, src.height, src.width, 4⟩)
          ⟨t3, src.height, src.width, 4⟩ kernel radius 0 src.width).data
          (((x : ℤ) * src.height + (y : ℤ)) * 4 + (ch : ℤ))
        = roundAway (∑ ky ∈ Finset.range (2 * radius + 1),
            ((roundAway (spec_conv src kernel radius
                (clampIdx src.height ((y : ℤ) + ky - radius)) (x : ℤ) ch) : ℤ) : ℚ)
              * kernel.getD ky 0) := by
    have e3 : (transpose_image
        (blur_horizontal src ⟨t1, src.width, src.height, 4⟩ kernel radius 0 src.height)
        ⟨t2, src.height, src.width, 4⟩).width = src.height := rfl
    have h := blur_horizontal_read
      (transpose_image
        (blur_horizontal src ⟨t1, src.width, src.height, 4⟩ kernel radius 0 src.height)
        ⟨t2, src.height, src.width, 4⟩)
      ⟨t3, src.height, src.width, 4⟩ kernel radius 0 src.width x y ch
      rfl rfl (by show 2 * radius ≤ src.height; exact h2rh)
      (Nat.zero_le _) hx (by show y < src.height; exact hy) hch
    rw [e3] at h
    rw [h]
    congr 1
    rw [spec_conv]
    rw [e3]
    apply Finset.sum_congr rfl
    intro ky hky
    congr 1
    obtain ⟨hb1, hb2⟩ := clampIdx_bounds src.height hh0 ((y : ℤ) + ky - radius)
    rw [hT2read (clampIdx src.height ((y : ℤ) + ky - radius)) hb1 hb2]
  rw [gaussian_blur_with_kernel,
    gaussian_phase_single src kernel radius src.height k hk,
    gaussian_phase_single _ kernel radius src.width k hk]
  have e4 : (blur_horizontal
      (transpose_image
        (blur_horizontal src ⟨t1, src.width, src.height, 4⟩ kernel radius 0 src.height)
        ⟨t2, src.height, src.width, 4⟩)
      ⟨t3, src.height, src.width, 4⟩ kernel radius 0 src.width).height = src.width := rfl
  have e5 : (blur_horizontal
      (transpose_image
        (blur_horizontal src ⟨t1, src.width, src.height, 4⟩ kernel radius 0 src.height)
        ⟨t2, src.height, src.width, 4⟩)
      ⟨t3, src.height, src.width, 4⟩ kernel radius 0 src.width).width = src.height := rfl
  have hfinal := transpose_image_read
    (blur_horizontal
      (transpose_image
        (blur_horizontal src ⟨t1, src.width, src.height, 4⟩ kernel radius 0 src.height)
        ⟨t2, src.height, src.width, 4⟩)
      ⟨t3, src.height, src.width, 4⟩ kernel radius 0 src.width)
    dst x y ch
    (by show x < src.width; exact hx) (by show y < src.height; exact hy) hch
  rw [e4, e5] at hfinal
  rw [hfinal, hT3read]

/-! ### Separability up to intermediate rounding -/

theorem roundAway_abs (q : ℚ) : |(roundAway q : ℚ) - q| ≤ 1 / 2 := by
  rw [roundAway]
  split_ifs with h
  · have h1 := Int.floor_le (-q + 1 / 2)
    have h2 := Int.lt_floor_add_one (-q + 1 / 2)
    rw [abs_le]
    push_cast
    constructor <;> linarith
  · have h1 := Int.floor_le (q + 1 / 2)
    have h2 := Int.lt_floor_add_one (q + 1 / 2)
    rw [abs_le]
    push_cast
    constructor <;> linarith

theorem roundAway_close (A B : ℚ) (h : |A - B| ≤ 1 / 2) :
    |roundAway A - roundAway B| ≤ 1 := by
  have h1 := roundAway_abs A
  have h2 := roundAway_abs B
  have h3 : |(roundAway A : ℚ) - (roundAway B : ℚ)| ≤ 3 / 2 := by
    rw [abs_le] at h1 h2 h ⊢
    constructor <;> linarith
  rw [abs_le] at h3
  rw [abs_le]
  constructor
  · by_contra hcon
    push_neg at hcon
    have h4 : ((roundAway A - roundAway B : ℤ) : ℚ) ≤ -2 := by
      exact_mod_cast (by omega : (roundAway A - roundAway B : ℤ) ≤ -2)
    push_cast at h4
    linarith
  · by_contra hcon
    push_neg at hcon
    have h4 : (2 : ℚ) ≤ ((roundAway A - roundAway B : ℤ) : ℚ) := by
      exact_mod_cast (by omega : (2 : ℤ) ≤ roundAway A - roundAway B)
    push_cast at h4
    linarith

theorem getD_nonneg (kernel : List ℚ) (hnn : ∀ w ∈ kernel, 0 ≤ w) (i : ℕ) :
    0 ≤ kernel.getD i 0 := by
  by_cases hi : i < kernel.length
  · rw [List.getD_eq_getElem _ _ hi]
    exact hnn _ (List.getElem_mem hi)
  · rw [List.getD_eq_default _ _ (by omega)]

/-- C6 (amended): for every source image, normalised nonnegative kernel and
radius fitting both dimensions (`2*radius ≤ width, height`), each output byte
of the implemented two-pass pipeline (horizontal convolution, transpose,
horizontal convolution, transpose) differs from the single-rounding direct
2-D convolution with the outer-product kernel by at most 1.  Exact equality
— the claim as stated — fails (see the counterexample): the pipeline rounds
the intermediate pass to bytes, the direct 2-D convolution rounds once. -/
theorem C6_separability_within_one (src dst : Image) (kernel : List ℚ)
    (radius k : ℕ) (t1 t2 t3 : ℤ → ℤ) (y x ch : ℕ)
    (hk : 1 ≤ k) (h2rw : 2 * radius ≤ src.width) (h2rh : 2 * radius ≤ src.height)
    (hy : y < src.height) (hx : x < src.width) (hch : ch < 4)
    (hnn : ∀ w ∈ kernel, 0 ≤ w)
    (hsum : ∑ i ∈ Finset.range (2 * radius + 1), kernel.getD i 0 = 1) :
    |(gaussian_blur_with_kernel src dst kernel radius k t1 t2 t3).data
        (((y : ℤ) * src.width + (x : ℤ)) * 4 + (ch : ℤ))
      - roundAway (spec_conv2d src kernel radius (y : ℤ) (x : ℤ) ch)| ≤ 1 := by
  rw [gaussian_pipeline_read src dst kernel radius k t1 t2 t3 y x ch
    hk h2rw h2rh hy hx hch]
  have hB : spec_conv2d src kernel radius (y : ℤ) (x : ℤ) ch
      = ∑ ky ∈ Finset.range (2 * radius + 1),
          spec_conv src kernel radius (clampIdx src.height ((y : ℤ) + ky - radius))
            (x : ℤ) ch * kernel.getD ky 0 := by
    rw [spec_conv2d]
    apply Finset.sum_congr rfl
    intro ky hky
    rw [spec_conv, Finset.sum_mul]
    apply Finset.sum_congr rfl
    intro kx hkx
    ring
  rw [hB]
  apply roundAway_close
  have hdiff : (∑ ky ∈ Finset.range (2 * radius + 1),
        ((roundAway (spec_conv src kernel radius
            (clampIdx src.height ((y : ℤ) + ky - radius)) (x : ℤ) ch) : ℤ) : ℚ)
          * kernel.getD ky 0)
      - (∑ ky ∈ Finset.range (2 * radius + 1),
          spec_conv src kernel radius (clampIdx src.height ((y : ℤ) + ky - radius))
            (x : ℤ) ch * kernel.getD ky 0)
      = ∑ ky ∈ Finset.range (2 * radius + 1),
          (((roundAway (spec_conv src kernel radius
              (clampIdx src.height ((y : ℤ) + ky - radius)) (x : ℤ) ch) : ℤ) : ℚ)
            - spec_conv src kernel radius (clampIdx src.height ((y : ℤ) + ky - radius))
                (x : ℤ) ch) * kernel.getD ky 0 := by
    rw [← Finset.sum_sub_distrib]
    apply Finset.sum_congr rfl
    intro ky hky
    ring
  rw [hdiff]
  calc |∑ ky ∈ Finset.range (2 * radius + 1),
        (((roundAway (spec_conv src kernel radius
            (clampIdx src.height ((y : ℤ) + ky - radius)) (x : ℤ) ch) : ℤ) : ℚ)
          - spec_conv src kernel radius (clampIdx src.height ((y : ℤ) + ky - radius))
              (x : ℤ) ch) * kernel.getD ky 0|
      ≤ ∑ ky ∈ Finset.range (2 * radius + 1),
        |(((roundAway (spec_conv src kernel radius
            (clampIdx src.height ((y : ℤ) + ky - radius)) (x : ℤ) ch) : ℤ) : ℚ)
          - spec_conv src kernel radius (clampIdx src.height ((y : ℤ) + ky - radius))
              (x : ℤ) ch) * kernel.getD ky 0| := Finset.abs_sum_le_sum_abs _ _
  _ ≤ ∑ ky ∈ Finset.range (2 * radius + 1), (1 / 2) * kernel.getD ky 0 := by
        apply Finset.sum_le_sum
        intro ky hky
        rw [abs_mul, abs_of_nonneg (getD_nonneg kernel hnn ky)]
        exact mul_le_mul_of_nonneg_right (roundAway_abs _) (getD_nonneg kernel hnn ky)
  _ = 1 / 2 := by
        rw [← Finset.mul_sum, hsum, mul_one]

/-- Counterexample to C6 as stated: the 5×5 image with a single bright pixel
(255) at the centre, blurred with the normalised symmetric radius-2 kernel
`[1/256, 63/256, 128/256, 63/256, 1/256]`, yields 1 at pixel (2,0) from the
two-pass pipeline (the intermediate value 127.5 is rounded up to 128 between
the passes), while the direct 2-D convolution of the same image with the
outer-product kernel yields `roundAway(255/512) = 0` there. -/
theorem C6_separability_counterexample :
    (gaussian_blur_with_kernel cxSrcC6 cxDstC6 cxKernelC6 2 1
        (fun _ => 0) (fun _ => 0) (fun _ => 0)).data
        ((((0 : ℕ) : ℤ) * cxSrcC6.width + ((2 : ℕ) : ℤ)) * 4 + ((0 : ℕ) : ℤ))
      ≠ roundAway (spec_conv2d cxSrcC6 cxKernelC6 2 ((0 : ℕ) : ℤ) ((2 : ℕ) : ℤ) 0) := by
  rw [gaussian_pipeline_read cxSrcC6 cxDstC6 cxKernelC6 2 1
    (fun _ => 0) (fun _ => 0) (fun _ => 0) 0 2 0
    (by decide) (by decide) (by decide) (by decide) (by decide) (by decide)]
  norm_num [cxSrcC6, cxKernelC6, spec_conv, spec_conv2d, clampIdx, roundAway,
    Finset.sum_range_succ, List.getD]

/-- Witness for C6 (amended) on a 2×2 image with the radius-1 kernel
`[1/4, 1/2, 1/4]`. -/
theorem C6_separability_witness :
    (1 ≤ 2 ∧ 2 * 1 ≤ wSrc2.width ∧ 2 * 1 ≤ wSrc2.height ∧ 1 < wSrc2.height
      ∧ 0 < wSrc2.width ∧ 0 < 4
      ∧ (∀ w ∈ cxKernel, 0 ≤ w)
      ∧ ∑ i ∈ Finset.range (2 * 1 + 1), cxKernel.getD i 0 = 1)
    ∧ |(gaussian_blur_with_kernel wSrc2 wDst2 cxKernel 1 2
        (fun _ => 0) (fun _ => 0) (fun _ => 0)).data
        ((((1 : ℕ) : ℤ) * wSrc2.width + ((0 : ℕ) : ℤ)) * 4 + ((0 : ℕ) : ℤ))
      - roundAway (spec_conv2d wSrc2 cxKernel 1 ((1 : ℕ) : ℤ) ((0 : ℕ) : ℤ) 0)| ≤ 1 :=
  ⟨⟨by decide, by decide, by decide, by decide, by decide, by decide,
      by norm_num [cxKernel],
      by norm_num [cxKernel, Finset.sum_range_succ, List.getD]⟩,
    C6_separability_within_one wSrc2 wDst2 cxKernel 1 2
      (fun _ => 0) (fun _ => 0) (fun _ => 0) 1 0 0
      (by decide) (by decide) (by decide) (by decide) (by decide) (by decide)
      (by norm_num [cxKernel])
      (by norm_num [cxKernel, Finset.sum_range_succ, List.getD])⟩
